import Mathlib

/-!
# dyn_array: a shallow embedding of `dyn_array.c`

The container `struct da_dyn_array_s` and its operations are embedded as pure
functions over an explicit state.

* `size_t` values are natural numbers; every `size_t` operation of the source
  that can wrap is reduced modulo `2 ^ w`, where `w` is the width of `size_t`.
* The backing buffer is a list of bytes (one natural number per byte); `NULL`
  is `none`.
* The C library calls (`malloc`, `realloc`, `memcpy`, `qsort`) are modelled
  after the C standard.  Whether an allocation succeeds, which bytes fresh
  storage holds, and whether a `realloc` to 0 bytes releases the old block, is
  not decided by the program: it is supplied by the caller of the model as an
  `Alloc` value, one per allocator call.
* Behaviour the C standard leaves undefined (division by zero, a `memcpy`
  outside the allocated block) and a failed `assert` end the run with a
  `Fault`.
-/

namespace DynArray

/-! ## Data model -/

/-- Status code `DA_SUCCESS` of `dyn_array.h`. -/
def DA_SUCCESS : Int := 0

/-- Status code `DA_FAILURE` of `dyn_array.h`. -/
def DA_FAILURE : Int := 1

/-- Ways in which a run leaves the behaviour defined by the C standard. -/
inductive Fault where
  /-- Integer division with a zero divisor (`byte_size / da->size`). -/
  | div_by_zero
  /-- Access through a null pointer. -/
  | null_pointer
  /-- A `memcpy` whose source or destination range is not inside its block. -/
  | out_of_bounds
  /-- An `assert` of the source whose condition is false. -/
  | assert_failed
  deriving DecidableEq

/-- The container, `struct da_dyn_array_s`: `base` is the backing buffer
(`none` is `NULL`), `nmemb` the capacity in elements, `size` the size of one
element in bytes and `index` the logical length. -/
structure da_dyn_array_s where
  base : Option (List Nat)
  nmemb : Nat
  size : Nat
  index : Nat
  deriving DecidableEq

/-- Outcome of one allocator call, chosen by the environment: `ok` tells
whether the call returns a block, `junk k` is the indeterminate value the
byte at offset `k` of fresh storage holds, and `zero_frees` tells whether a
`realloc` to 0 bytes that returns `NULL` has released the old block, which
the C standard leaves to the implementation (glibc does so). -/
structure Alloc where
  ok : Bool
  junk : Nat → Nat
  zero_frees : Bool

/-- The iterator, `struct da_iterator`.  Its field `da` points to the live
container, whose current state is handed to `da_it_next` at every call; only
the cursor `index` is stored. -/
structure da_iterator where
  index : Nat
  deriving DecidableEq

/-! ## C library -/

/-- The pointer the C library `realloc(ptr, n)` returns: `NULL` when the
allocator does not hand out a block; otherwise a new block of `n` bytes, the
first `min n old` of them copied from the old block and the others
indeterminate.  A null `ptr` makes it `malloc(n)`.  What becomes of the old
block when `NULL` is returned is `realloc_old_block`. -/
def realloc (a : Alloc) (ptr : Option (List Nat)) (n : Nat) : Option (List Nat) :=
  if a.ok then
    some ((ptr.getD []).take n ++
      (List.range (n - (ptr.getD []).length)).map (fun k => a.junk ((ptr.getD []).length + k)))
  else none

/-- What the pointer `ptr` refers to after a `realloc(ptr, n)` that returned
`NULL`.  The old block stays as it is, with one exception: a request for 0
bytes may be served by releasing the block and returning `NULL`.  The pointer
the caller still holds then dangles: no byte can be read or written through
it, which is rendered as a block without bytes. -/
def realloc_old_block (a : Alloc) (ptr : Option (List Nat)) (n : Nat) : Option (List Nat) :=
  match ptr with
  | none => none
  | some b => if n = 0 ∧ a.zero_frees = true then some [] else some b

/-- The C library `memcpy(dst + off, src, n)`: the `n` bytes starting at
offset `off` of the block `dst` are replaced by the first `n` bytes of `src`.
Both ranges have to lie inside their blocks. -/
def memcpy (dst : Option (List Nat)) (off : Nat) (src : List Nat) (n : Nat) :
    Except Fault (List Nat) :=
  match dst with
  | none => .error .null_pointer
  | some b =>
    if off + n ≤ b.length ∧ n ≤ src.length then
      .ok (b.take off ++ src.take n ++ b.drop (off + n))
    else .error .out_of_bounds

/-! ## Container operations -/

/-- Source `da_resize` (dyn_array.c, lines 67-92).  When `realloc` returns
`NULL` the source leaves the structure alone; `base` then refers to what
`realloc` has left of the old block. -/
def da_resize (w : Nat) (a : Alloc) (da : da_dyn_array_s) (nmemb : Nat) :
    Except Fault (Int × da_dyn_array_s) :=
  let byte_size := (nmemb * da.size) % 2 ^ w
  if da.size = 0 then .error .div_by_zero
  else if byte_size / da.size = nmemb then
    match realloc a da.base byte_size with
    | some tmp =>
      if nmemb < da.index then
        .ok (DA_SUCCESS, { da with base := some tmp, nmemb := nmemb, index := nmemb })
      else
        .ok (DA_SUCCESS, { da with base := some tmp, nmemb := nmemb })
    | none => .ok (DA_FAILURE, { da with base := realloc_old_block a da.base byte_size })
  else .ok (DA_FAILURE, da)

/-- Source `da_create` (dyn_array.c, lines 36-56).  `m` is the outcome of the
`malloc` of the structure: `none` when it fails, otherwise the indeterminate
values the fields `nmemb` and `index` of the fresh structure hold. -/
def da_create (w : Nat) (m : Option (Nat × Nat)) (a : Alloc) (nmemb size : Nat) :
    Except Fault (Option da_dyn_array_s) :=
  match m with
  | none => .ok none
  | some g =>
    match da_resize w a { base := none, nmemb := g.1, size := size, index := g.2 } nmemb with
    | .error f => .error f
    | .ok r =>
      if r.1 = DA_FAILURE then .ok none
      else .ok (some { r.2 with index := 0 })

/-- Source `da_set` (dyn_array.c, lines 100-128).  `obj` is the object the
argument points to, as its bytes. -/
def da_set (w : Nat) (a : Alloc) (da : da_dyn_array_s) (obj : List Nat) (index : Nat) :
    Except Fault (Int × da_dyn_array_s) :=
  match (if index ≥ da.nmemb then da_resize w a da ((da.nmemb + index + 1) % 2 ^ w)
         else .ok (DA_SUCCESS, da)) with
  | .error f => .error f
  | .ok r =>
    if r.1 ≠ DA_FAILURE then
      match memcpy r.2.base ((index * r.2.size) % 2 ^ w) obj r.2.size with
      | .error f => .error f
      | .ok b =>
        if index ≥ r.2.index then
          .ok (r.1, { r.2 with base := some b, index := (index + 1) % 2 ^ w })
        else
          .ok (r.1, { r.2 with base := some b })
    else .ok (r.1, r.2)

/-- Source `da_add` (dyn_array.c, lines 94-98). -/
def da_add (w : Nat) (a : Alloc) (da : da_dyn_array_s) (obj : List Nat) :
    Except Fault (Int × da_dyn_array_s) :=
  da_set w a da obj da.index

/-! ## Iterator operations -/

/-- Source `da_it_create` (dyn_array.c, lines 144-157); `ok` tells whether the
`malloc` of the iterator succeeds. -/
def da_it_create (ok : Bool) : Option da_iterator :=
  if ok then some { index := 0 } else none

/-- Source `da_it_next` (dyn_array.c, lines 159-178) on an iterator whose
container is in state `da`.  The pointer returned is given as its byte offset
from `da.base`; `none` is `NULL`. -/
def da_it_next (w : Nat) (da : da_dyn_array_s) (it : da_iterator) :
    Except Fault (Option Nat × da_iterator) :=
  match da.base with
  | none => .error .assert_failed
  | some _ =>
    if it.index ≥ da.index then .ok (none, it)
    else .ok (some ((it.index * da.size) % 2 ^ w), { index := (it.index + 1) % 2 ^ w })

/-! ## Observations -/

/-- The `da.size` bytes of the buffer that start at byte offset `off`: what a
reader sees through a pointer `base + off` to an element. -/
def da_peek (da : da_dyn_array_s) (off : Nat) : List Nat :=
  ((da.base.getD []).drop off).take da.size

/-- The bytes of the slot at index `i`. -/
def da_slot (da : da_dyn_array_s) (i : Nat) : List Nat :=
  da_peek da (i * da.size)

/-- A container as the operations leave it: the fields are `size_t` values,
the buffer is a block of exactly `nmemb * size` bytes, and the logical length
does not exceed the capacity. -/
def da_valid (w : Nat) (da : da_dyn_array_s) : Prop :=
  da.nmemb < 2 ^ w ∧ da.size < 2 ^ w ∧ da.index < 2 ^ w ∧ da.index ≤ da.nmemb ∧
    ∃ b, da.base = some b ∧ b.length = da.nmemb * da.size ∧ b.length < 2 ^ w

/-- The outcome of `n` successive `da_it_next` calls on the iterator `it`
over a container that stays in state `da`: the value returned by the last
call and the iterator after it (`none` before any call). -/
def da_it_run (w : Nat) (da : da_dyn_array_s) (it : da_iterator) :
    Nat → Except Fault (Option Nat × da_iterator)
  | 0 => .ok (none, it)
  | n + 1 =>
    match da_it_run w da it n with
    | .error f => .error f
    | .ok r => da_it_next w da r.2

/-! ## Sample inputs -/

/-- An allocator outcome that grants the request and fills fresh bytes with `0xAA`. -/
def alloc_ok : Alloc := ⟨true, fun _ => 170, false⟩

/-- An allocator outcome that refuses the request and keeps the old block. -/
def alloc_fail : Alloc := ⟨false, fun _ => 170, false⟩

/-- The outcome of glibc for a `realloc` to 0 bytes: `NULL` is returned and
the old block is released. -/
def alloc_zero_frees : Alloc := ⟨false, fun _ => 170, true⟩

/-- A container of two 4-byte elements, both written. -/
def sample_da : da_dyn_array_s := ⟨some [1, 0, 0, 0, 2, 0, 0, 0], 2, 4, 2⟩

/-- A container of five 4-byte elements, all written. -/
def sample_full : da_dyn_array_s :=
  ⟨some [1, 0, 0, 0, 2, 0, 0, 0, 3, 0, 0, 0, 4, 0, 0, 0, 5, 0, 0, 0], 5, 4, 5⟩

/-- The container `da_create(5, 1)` returns when `alloc_ok` serves it. -/
def sample_bytes : da_dyn_array_s := ⟨some [170, 170, 170, 170, 170], 5, 1, 0⟩

/-! ## Sorting -/

/-- The C library `qsort(base, nmemb, size, compar)`: the first `nmemb`
elements of `size` bytes of the block are brought into ascending order of
`compar`, which sees the bytes of the two elements it is handed.  The array
has to lie inside the block.  The elements are sorted by insertion, which is
one of the orders the C standard allows for elements that compare equal. -/
def qsort (base : Option (List Nat)) (nmemb size : Nat)
    (compar : List Nat → List Nat → Int) : Except Fault (List Nat) :=
  match base with
  | none => .error .null_pointer
  | some b =>
    if nmemb * size ≤ b.length then
      .ok ((List.insertionSort (fun x y => compar x y ≤ 0)
          ((List.range nmemb).map (fun i => (b.drop (i * size)).take size))).flatten ++
        b.drop (nmemb * size))
    else .error .out_of_bounds

/-- Source `da_sort` (dyn_array.c, lines 130-136). -/
def da_sort (da : da_dyn_array_s) (compar : List Nat → List Nat → Int) :
    Except Fault da_dyn_array_s :=
  match qsort da.base da.index da.size compar with
  | .error f => .error f
  | .ok b => .ok { da with base := some b }

/-! ## Sequences of calls -/

/-- The slots at the indices `0 .. n - 1`, in index order. -/
def da_slots (da : da_dyn_array_s) (n : Nat) : List (List Nat) :=
  (List.range n).map (da_slot da)

/-- Successive `da_add` calls, one per entry of the list: the entry gives the
allocator outcome the call meets and the element it appends.  The run stops at
the first call that does not return `DA_SUCCESS` and reports the status of the
last call made. -/
def da_add_list (w : Nat) (da : da_dyn_array_s) :
    List (Alloc × List Nat) → Except Fault (Int × da_dyn_array_s)
  | [] => .ok (DA_SUCCESS, da)
  | p :: rest =>
    match da_add w p.1 da p.2 with
    | .error f => .error f
    | .ok r => if r.1 = DA_SUCCESS then da_add_list w r.2 rest else .ok r

/-- The number of calls of the run `da_add_list` that enter the growth branch
of `da_set` (`index >= da->nmemb`, line 107) and so call `da_resize`. -/
def da_add_resizes (w : Nat) (da : da_dyn_array_s) : List (Alloc × List Nat) → Nat
  | [] => 0
  | p :: rest =>
    (if da.index ≥ da.nmemb then 1 else 0) +
      match da_add w p.1 da p.2 with
      | .error _ => 0
      | .ok r => if r.1 = DA_SUCCESS then da_add_resizes w r.2 rest else 0

/-- A comparator on 4-byte elements: the difference of their first bytes. -/
def compar_first (x y : List Nat) : Int := (x.headD 0 : Int) - (y.headD 0 : Int)

/-- A container of capacity four holding the three 4-byte elements 3, 1, 2. -/
def sample_unsorted : da_dyn_array_s :=
  ⟨some [3, 0, 0, 0, 1, 0, 0, 0, 2, 0, 0, 0, 170, 170, 170, 170], 4, 4, 3⟩

/-! ## Helper lemmas -/

/-! ### Arithmetic of the overflow test -/

theorem mul_mod_div_ne_of_wrap {M n s : Nat} (hov : M ≤ n * s) (hM : 0 < M) :
    (n * s) % M / s ≠ n := by
  intro h
  have h1 : (n * s) % M / s * s ≤ (n * s) % M := Nat.div_mul_le_self _ _
  rw [h] at h1
  have h2 : (n * s) % M < M := Nat.mod_lt _ hM
  omega

theorem mul_lt_of_mod_div_eq {M n s : Nat} (hM : 0 < M)
    (h : (n * s) % M / s = n) : n * s < M := by
  by_contra hc
  exact mul_mod_div_ne_of_wrap (Nat.le_of_not_lt hc) hM h

theorem mod_div_eq_of_mul_lt {M n s : Nat} (hs : 0 < s) (h : n * s < M) :
    (n * s) % M / s = n := by
  rw [Nat.mod_eq_of_lt h]
  exact Nat.mul_div_cancel n hs

/-- A write that lands inside a block of `m` elements, where `m` is the wrapped
sum `(c + i + 1) % M`, shows that the sum did not wrap. -/
theorem add_no_wrap_of_in_bounds {M c i s : Nat} (hc : c < M) (hi : i < M)
    (hcs : c * s < M) (hs : 0 < s)
    (hin : (i * s) % M + s ≤ ((c + i + 1) % M) * s) : c + i + 1 < M := by
  by_contra hwrap
  have hge : M ≤ c + i + 1 := Nat.le_of_not_lt hwrap
  have hm : (c + i + 1) % M = c + i + 1 - M := by
    rw [Nat.mod_eq_sub_mod hge]
    exact Nat.mod_eq_of_lt (by omega)
  rw [hm] at hin
  -- d = c + 1 - m with m = c + i + 1 - M, so that i + d = M
  have hd : i + (M - i) = M := by omega
  have hz : ((i * s) % M + (M - i) * s) % M = 0 := by
    rw [Nat.mod_add_mod, ← Nat.add_mul, hd]
    exact Nat.mul_mod_right M s
  have hlt : (i * s) % M + (M - i) * s < M := by
    have e1 : (c + i + 1 - M) + (M - i) = c + 1 := by omega
    have e2 : (c + i + 1 - M) * s + (M - i) * s = c * s + s := by
      rw [← Nat.add_mul, e1, Nat.add_mul, Nat.one_mul]
    omega
  have hpos : 0 < (M - i) * s := Nat.mul_pos (by omega) hs
  rw [Nat.mod_eq_of_lt hlt] at hz
  omega

/-! ## Lists of bytes -/

theorem drop_take_congr {l1 l2 : List Nat} {off s : Nat}
    (h : ∀ k, off ≤ k → k < off + s → l1[k]? = l2[k]?) :
    (l1.drop off).take s = (l2.drop off).take s := by
  apply List.ext_getElem?
  intro k
  rw [List.getElem?_take, List.getElem?_take]
  by_cases hk : k < s
  · simp only [hk, if_true, List.getElem?_drop]
    exact h (off + k) (by omega) (by omega)
  · simp [hk]

theorem realloc_some {a : Alloc} {b t : List Nat} {n : Nat}
    (h : realloc a (some b) n = some t) :
    t.length = n ∧ ∀ k, k < n → k < b.length → t[k]? = b[k]? := by
  unfold realloc at h
  by_cases hok : a.ok = true
  · simp only [hok, if_true, Option.getD_some, Option.some.injEq] at h
    subst h
    refine ⟨?_, ?_⟩
    · simp only [List.length_append, List.length_take, List.length_map, List.length_range]
      omega
    · intro k hk hkb
      rw [List.getElem?_append_left (by simp only [List.length_take]; omega)]
      exact List.getElem?_take_of_lt hk
  · simp [hok] at h

theorem realloc_length {a : Alloc} {p : Option (List Nat)} {t : List Nat} {n : Nat}
    (h : realloc a p n = some t) : t.length = n := by
  unfold realloc at h
  by_cases hok : a.ok = true
  · simp only [hok, if_true, Option.some.injEq] at h
    subst h
    simp only [List.length_append, List.length_take, List.length_map, List.length_range]
    omega
  · simp [hok] at h

theorem memcpy_ok {dst : Option (List Nat)} {off n : Nat} {src r : List Nat}
    (h : memcpy dst off src n = .ok r) :
    ∃ b, dst = some b ∧ off + n ≤ b.length ∧ n ≤ src.length ∧ r.length = b.length ∧
      (∀ k, (k < off ∨ off + n ≤ k) → r[k]? = b[k]?) ∧
      (r.drop off).take n = src.take n := by
  unfold memcpy at h
  cases dst with
  | none => simp at h
  | some b =>
    by_cases hc : off + n ≤ b.length ∧ n ≤ src.length
    · simp only [hc, and_self, if_true, Except.ok.injEq] at h
      subst h
      have hl1 : (b.take off).length = off := by simp only [List.length_take]; omega
      have hl2 : (src.take n).length = n := by simp only [List.length_take]; omega
      refine ⟨b, rfl, hc.1, hc.2, ?_, ?_, ?_⟩
      · simp only [List.length_append, List.length_take, List.length_drop]; omega
      · intro k hk
        rcases hk with hk | hk
        · rw [List.append_assoc, List.getElem?_append_left (by omega)]
          exact List.getElem?_take_of_lt hk
        · rw [List.getElem?_append_right (by simp only [List.length_append]; omega)]
          rw [List.getElem?_drop]
          congr 1
          simp only [List.length_append]; omega
      · rw [List.append_assoc, List.drop_left' hl1, List.take_left' hl2]
    · simp [hc] at h

theorem memcpy_some_ok (b : List Nat) (off n : Nat) (src : List Nat)
    (h1 : off + n ≤ b.length) (h2 : n ≤ src.length) :
    ∃ r, memcpy (some b) off src n = .ok r := by
  unfold memcpy
  simp [h1, h2]

/-! ## Characterisation of the operations -/

theorem two_pow_pos (w : Nat) : 0 < 2 ^ w := Nat.pow_pos (by decide)

/-- What a `da_resize` that reports success has done. -/
theorem da_resize_success {w : Nat} {a : Alloc} {da da' : da_dyn_array_s} {n : Nat}
    (h : da_resize w a da n = .ok (DA_SUCCESS, da')) :
    0 < da.size ∧ n * da.size < 2 ^ w ∧
      ∃ tmp, realloc a da.base (n * da.size) = some tmp ∧
        da' = { base := some tmp, nmemb := n, size := da.size, index := min da.index n } := by
  unfold da_resize at h
  by_cases hs : da.size = 0
  · simp [hs] at h
  · simp only [hs, if_false] at h
    by_cases hc : (n * da.size) % 2 ^ w / da.size = n
    · have hlt : n * da.size < 2 ^ w := mul_lt_of_mod_div_eq (two_pow_pos w) hc
      simp only [hc, if_true] at h
      rw [Nat.mod_eq_of_lt hlt] at h
      refine ⟨Nat.pos_of_ne_zero hs, hlt, ?_⟩
      cases hr : realloc a da.base (n * da.size) with
      | none =>
        rw [hr] at h
        simp [DA_SUCCESS, DA_FAILURE] at h
      | some tmp =>
        rw [hr] at h
        refine ⟨tmp, rfl, ?_⟩
        by_cases hlt2 : n < da.index
        · simp only [hlt2, if_true, Except.ok.injEq, Prod.mk.injEq, true_and] at h
          rw [← h, Nat.min_eq_right (Nat.le_of_lt hlt2)]
        · simp only [hlt2, if_false, Except.ok.injEq, Prod.mk.injEq, true_and] at h
          rw [← h, Nat.min_eq_left (Nat.le_of_not_lt hlt2)]
    · simp [hc, DA_SUCCESS, DA_FAILURE] at h

/-- After a `realloc` that returned `NULL` the old pointer refers to the old
block, or the request was for 0 bytes and the block has been released. -/
theorem realloc_old_block_cases (a : Alloc) (p : Option (List Nat)) (n : Nat) :
    realloc_old_block a p n = p ∨
      (n = 0 ∧ a.zero_frees = true ∧ realloc_old_block a p n = some []) := by
  unfold realloc_old_block
  cases p with
  | none => exact Or.inl rfl
  | some b =>
    by_cases hc : n = 0 ∧ a.zero_frees = true
    · right
      simp only [hc, and_self, if_true]
    · left
      simp only [hc, if_false]

/-- A `da_resize` that returns reports `DA_SUCCESS` or `DA_FAILURE`; on
`DA_FAILURE` capacity, element size and length are as before, and so is the
buffer unless the request was for 0 elements and the allocator released the
old block. -/
theorem da_resize_ok {w : Nat} {a : Alloc} {da da' : da_dyn_array_s} {n : Nat} {st : Int}
    (h : da_resize w a da n = .ok (st, da')) :
    st = DA_SUCCESS ∨
      (st = DA_FAILURE ∧ da'.nmemb = da.nmemb ∧ da'.size = da.size ∧ da'.index = da.index ∧
        (da' = da ∨ (n = 0 ∧ a.zero_frees = true ∧ da'.base = some []))) := by
  unfold da_resize at h
  by_cases hs : da.size = 0
  · simp [hs] at h
  · simp only [hs, if_false] at h
    by_cases hc : (n * da.size) % 2 ^ w / da.size = n
    · simp only [hc, if_true] at h
      cases hr : realloc a da.base ((n * da.size) % 2 ^ w) with
      | none =>
        rw [hr] at h
        simp only [Except.ok.injEq, Prod.mk.injEq] at h
        obtain ⟨h1, h2⟩ := h
        subst h2
        refine Or.inr ⟨h1.symm, rfl, rfl, rfl, ?_⟩
        rcases realloc_old_block_cases a da.base ((n * da.size) % 2 ^ w) with hk | ⟨h0, hz, hb⟩
        · left
          rw [hk]
        · rw [h0, Nat.zero_div] at hc
          exact Or.inr ⟨hc.symm, hz, hb⟩
      | some tmp =>
        rw [hr] at h
        by_cases hlt2 : n < da.index
        · simp only [hlt2, if_true, Except.ok.injEq, Prod.mk.injEq] at h
          exact Or.inl h.1.symm
        · simp only [hlt2, if_false, Except.ok.injEq, Prod.mk.injEq] at h
          exact Or.inl h.1.symm
    · simp only [hc, if_false, Except.ok.injEq, Prod.mk.injEq] at h
      obtain ⟨h1, h2⟩ := h
      subst h2
      exact Or.inr ⟨h1.symm, rfl, rfl, rfl, Or.inl rfl⟩

theorem DA_SUCCESS_ne_DA_FAILURE : DA_SUCCESS ≠ DA_FAILURE := by decide

/-- The store half of `da_set`: what happens once the growth step has left the
container in state `mid` with a status other than `DA_FAILURE`. -/
theorem da_set_unfold_small {w : Nat} {a : Alloc} {da : da_dyn_array_s} {obj : List Nat}
    {i : Nat} (hi : i < da.nmemb) :
    da_set w a da obj i =
      match memcpy da.base ((i * da.size) % 2 ^ w) obj da.size with
      | .error f => .error f
      | .ok b =>
        if i ≥ da.index then
          .ok (DA_SUCCESS, { da with base := some b, index := (i + 1) % 2 ^ w })
        else .ok (DA_SUCCESS, { da with base := some b }) := by
  unfold da_set
  have h1 : ¬ (i ≥ da.nmemb) := by omega
  simp only [h1, if_false]
  simp [DA_SUCCESS_ne_DA_FAILURE]

theorem da_set_unfold_grow {w : Nat} {a : Alloc} {da : da_dyn_array_s} {obj : List Nat}
    {i : Nat} (hi : da.nmemb ≤ i) :
    da_set w a da obj i =
      match da_resize w a da ((da.nmemb + i + 1) % 2 ^ w) with
      | .error f => .error f
      | .ok r =>
        if r.1 ≠ DA_FAILURE then
          match memcpy r.2.base ((i * r.2.size) % 2 ^ w) obj r.2.size with
          | .error f => .error f
          | .ok b =>
            if i ≥ r.2.index then
              .ok (r.1, { r.2 with base := some b, index := (i + 1) % 2 ^ w })
            else .ok (r.1, { r.2 with base := some b })
        else .ok (r.1, r.2) := by
  unfold da_set
  have h1 : i ≥ da.nmemb := hi
  simp only [h1, if_true]

/-- A successful `da_resize` to a `size_t` count leaves a valid container. -/
theorem da_resize_valid {w : Nat} {a : Alloc} {da da' : da_dyn_array_s} {n : Nat}
    (hsz : da.size < 2 ^ w) (hn : n < 2 ^ w)
    (h : da_resize w a da n = .ok (DA_SUCCESS, da')) : da_valid w da' := by
  obtain ⟨_, hlt, tmp, hr, rfl⟩ := da_resize_success h
  have hlen := realloc_length hr
  refine ⟨hn, hsz, ?_, ?_, tmp, rfl, hlen, ?_⟩
  · exact Nat.lt_of_le_of_lt (Nat.min_le_right _ _) hn
  · exact Nat.min_le_right _ _
  · rw [hlen]; exact hlt

/-- What a `da_set` that reports success has done, on a valid container and a
`size_t` index: the growth step, if any, asked for `nmemb + index + 1` elements
without wrapping and left the state `mid`; the element was then copied to byte
offset `index * size` of the buffer of `mid`. -/
theorem da_set_success {w : Nat} {a : Alloc} {da da' : da_dyn_array_s} {obj : List Nat}
    {i : Nat} (hv : da_valid w da) (hi : i < 2 ^ w)
    (h : da_set w a da obj i = .ok (DA_SUCCESS, da')) :
    ∃ mid b',
      ((i < da.nmemb ∧ mid = da) ∨
        (da.nmemb ≤ i ∧ da.nmemb + i + 1 < 2 ^ w ∧
          da_resize w a da (da.nmemb + i + 1) = .ok (DA_SUCCESS, mid))) ∧
      i < mid.nmemb ∧ mid.size = da.size ∧ mid.index = da.index ∧ da_valid w mid ∧
      memcpy mid.base (i * da.size) obj da.size = .ok b' ∧
      da' = { base := some b', nmemb := mid.nmemb, size := da.size,
              index := if da.index ≤ i then i + 1 else da.index } := by
  obtain ⟨hnm, hsz, hix, hle, b, hb, hbl, hbw⟩ := hv
  by_cases hsmall : i < da.nmemb
  · -- no growth
    have hoff : i * da.size + da.size ≤ da.nmemb * da.size := by
      have : (i + 1) * da.size ≤ da.nmemb * da.size := Nat.mul_le_mul_right _ hsmall
      rw [Nat.add_mul, Nat.one_mul] at this
      exact this
    have hmod : (i * da.size) % 2 ^ w = i * da.size := Nat.mod_eq_of_lt (by omega)
    rw [da_set_unfold_small hsmall, hmod] at h
    cases hm : memcpy da.base (i * da.size) obj da.size with
    | error f => rw [hm] at h; simp at h
    | ok b' =>
      rw [hm] at h
      refine ⟨da, b', Or.inl ⟨hsmall, rfl⟩, hsmall, rfl, rfl,
        ⟨hnm, hsz, hix, hle, b, hb, hbl, hbw⟩, hm, ?_⟩
      by_cases hge : i ≥ da.index
      · have hge' : da.index ≤ i := hge
        have hi1 : (i + 1) % 2 ^ w = i + 1 := Nat.mod_eq_of_lt (by omega)
        simp only [hge, if_true, Except.ok.injEq, Prod.mk.injEq, true_and, hi1] at h
        simp only [hge', if_true]
        exact h.symm
      · have hge' : ¬ da.index ≤ i := hge
        simp only [hge, if_false, Except.ok.injEq, Prod.mk.injEq, true_and] at h
        simp only [hge', if_false]
        exact h.symm
  · -- growth
    have hbig : da.nmemb ≤ i := Nat.le_of_not_lt hsmall
    rw [da_set_unfold_grow hbig] at h
    cases hr : da_resize w a da ((da.nmemb + i + 1) % 2 ^ w) with
    | error f => rw [hr] at h; simp at h
    | ok r =>
      obtain ⟨st, mid⟩ := r
      rw [hr] at h
      rcases da_resize_ok hr with hst | ⟨hst, _⟩
      · subst hst
        simp only [ne_eq, DA_SUCCESS_ne_DA_FAILURE, not_false_eq_true, if_true] at h
        obtain ⟨hspos, hlt, tmp, hrealloc, hmid⟩ := da_resize_success hr
        have htl := realloc_length hrealloc
        subst hmid
        simp only at h
        cases hm : memcpy (some tmp) ((i * da.size) % 2 ^ w) obj da.size with
        | error f => rw [hm] at h; simp at h
        | ok b' =>
          rw [hm] at h
          obtain ⟨b0, hb0, hin, _, _, _, _⟩ := memcpy_ok hm
          have hb0' : b0 = tmp := (Option.some.inj hb0).symm
          subst hb0'
          rw [htl] at hin
          have hnw : da.nmemb + i + 1 < 2 ^ w :=
            add_no_wrap_of_in_bounds hnm hi (by rw [← hbl]; exact hbw) hspos hin
          have hmeq : (da.nmemb + i + 1) % 2 ^ w = da.nmemb + i + 1 := Nat.mod_eq_of_lt hnw
          rw [hmeq] at hr hlt htl
          have hmin : min da.index (da.nmemb + i + 1) = da.index :=
            Nat.min_eq_left (by omega)
          have hoff : i * da.size < 2 ^ w := by
            have : i * da.size ≤ (da.nmemb + i + 1) * da.size :=
              Nat.mul_le_mul_right _ (by omega)
            omega
          have hmod : (i * da.size) % 2 ^ w = i * da.size := Nat.mod_eq_of_lt hoff
          rw [hmod] at hm
          rw [hmeq, hmin] at h
          rw [hmin] at hr
          refine ⟨_, b', Or.inr ⟨hbig, hnw, hr⟩, ?_, rfl, rfl, ?_, hm, ?_⟩
          · show i < da.nmemb + i + 1
            omega
          · exact da_resize_valid hsz hnw hr
          · by_cases hge : i ≥ da.index
            · have hge' : da.index ≤ i := hge
              have hi1 : (i + 1) % 2 ^ w = i + 1 := Nat.mod_eq_of_lt (by omega)
              simp only [hge, if_true, Except.ok.injEq, Prod.mk.injEq, true_and, hi1] at h
              simp only [hge', if_true]
              exact h.symm
            · have hge' : ¬ da.index ≤ i := hge
              simp only [hge, if_false, Except.ok.injEq, Prod.mk.injEq, true_and] at h
              simp only [hge', if_false]
              exact h.symm
      · subst hst
        simp [DA_SUCCESS_ne_DA_FAILURE.symm] at h

theorem slot_range_lt {j n s k : Nat} (hj : j < n) (hk : k < j * s + s) : k < n * s := by
  have : (j + 1) * s ≤ n * s := Nat.mul_le_mul_right _ hj
  rw [Nat.add_mul, Nat.one_mul] at this
  omega

theorem slot_disjoint {i j s k : Nat} (hne : j ≠ i) (h1 : j * s ≤ k) (h2 : k < j * s + s) :
    k < i * s ∨ i * s + s ≤ k := by
  rcases Nat.lt_or_gt_of_ne hne with hlt | hgt
  · exact Or.inl (slot_range_lt hlt h2)
  · have : (i + 1) * s ≤ j * s := Nat.mul_le_mul_right _ hgt
    rw [Nat.add_mul, Nat.one_mul] at this
    exact Or.inr (by omega)

/-- A successful `da_resize` keeps the bytes of every slot below both the old
and the new capacity. -/
theorem da_resize_slot {w : Nat} {a : Alloc} {da da' : da_dyn_array_s} {n : Nat}
    (hv : da_valid w da) (h : da_resize w a da n = .ok (DA_SUCCESS, da'))
    {i : Nat} (hi1 : i < da.nmemb) (hi2 : i < n) : da_slot da' i = da_slot da i := by
  obtain ⟨_, _, _, _, b, hb, hbl, _⟩ := hv
  obtain ⟨_, _, tmp, hr, rfl⟩ := da_resize_success h
  rw [hb] at hr
  obtain ⟨_, hcopy⟩ := realloc_some hr
  unfold da_slot da_peek
  simp only [hb, Option.getD_some]
  apply drop_take_congr
  intro k _ hk2
  exact hcopy k (slot_range_lt hi2 hk2) (by rw [hbl]; exact slot_range_lt hi1 hk2)

/-- A successful `da_set` on a valid container leaves a valid container. -/
theorem da_set_valid {w : Nat} {a : Alloc} {da da' : da_dyn_array_s} {obj : List Nat}
    {i : Nat} (hv : da_valid w da) (hi : i < 2 ^ w)
    (h : da_set w a da obj i = .ok (DA_SUCCESS, da')) : da_valid w da' := by
  obtain ⟨mid, b', _, him, hms, hmi, hmv, hm, rfl⟩ := da_set_success hv hi h
  obtain ⟨hnm, hsz, hix, hle, bm, hbm, hbl, hbw⟩ := hmv
  obtain ⟨b0, hb0, _, _, hlen, _, _⟩ := memcpy_ok hm
  have hb0' : b0 = bm := Option.some.inj (hb0.symm.trans hbm)
  subst hb0'
  rw [hms] at hsz hbl
  rw [hmi] at hix hle
  refine ⟨hnm, hsz, ?_, ?_, b', rfl, ?_, ?_⟩
  · show (if da.index ≤ i then i + 1 else da.index) < 2 ^ w
    split <;> omega
  · show (if da.index ≤ i then i + 1 else da.index) ≤ mid.nmemb
    split <;> omega
  · show b'.length = mid.nmemb * da.size
    omega
  · omega

/-- A container that `da_create` returns is valid, empty, and has the capacity
and element size asked for. -/
theorem da_create_some {w : Nat} {m : Option (Nat × Nat)} {a : Alloc} {n s : Nat}
    {da : da_dyn_array_s} (hn : n < 2 ^ w) (hs : s < 2 ^ w)
    (h : da_create w m a n s = .ok (some da)) :
    da_valid w da ∧ da.nmemb = n ∧ da.size = s ∧ da.index = 0 := by
  unfold da_create at h
  cases m with
  | none => simp at h
  | some g =>
    simp only at h
    cases hr : da_resize w a { base := none, nmemb := g.1, size := s, index := g.2 } n with
    | error f => rw [hr] at h; simp at h
    | ok r =>
      obtain ⟨st, mid⟩ := r
      rw [hr] at h
      rcases da_resize_ok hr with hst | ⟨hst, _⟩
      · subst hst
        simp only [DA_SUCCESS_ne_DA_FAILURE, if_false, Except.ok.injEq, Option.some.injEq] at h
        have hmv : da_valid w mid := da_resize_valid hs hn hr
        obtain ⟨_, _, tmp, _, rfl⟩ := da_resize_success hr
        obtain ⟨h1, h2, _, _, hb⟩ := hmv
        subst h
        exact ⟨⟨h1, h2, two_pow_pos w, Nat.zero_le _, hb⟩, rfl, rfl, rfl⟩
      · subst hst
        simp at h

/-- The `n + 1`-th `da_it_next` of an iterator that started at cursor `c`
returns the slot at index `c + n`, as long as that index is below the length. -/
theorem da_it_run_succ (w : Nat) {da : da_dyn_array_s} {b : List Nat} (hb : da.base = some b)
    (hw : da.index < 2 ^ w) (it : da_iterator) (n : Nat) (hn : it.index + n < da.index) :
    da_it_run w da it (n + 1) =
      .ok (some (((it.index + n) * da.size) % 2 ^ w), { index := it.index + n + 1 }) := by
  induction n with
  | zero =>
    have h0 : ¬ (it.index ≥ da.index) := by omega
    have h1 : (it.index + 1) % 2 ^ w = it.index + 1 := Nat.mod_eq_of_lt (by omega)
    simp [da_it_run, da_it_next, hb, h0, h1]
  | succ k ih =>
    have ih' := ih (by omega)
    have h0 : ¬ (it.index + k + 1 ≥ da.index) := by omega
    have h1 : (it.index + k + 1 + 1) % 2 ^ w = it.index + k + 1 + 1 :=
      Nat.mod_eq_of_lt (by omega)
    rw [da_it_run, ih']
    simp only [da_it_next, hb, h0, if_false, h1]
    rfl

/-- The bytes a successful `da_set` leaves in the buffer: slot `i` holds the
first `size` bytes of the element, every other slot below the old capacity
holds what it held. -/
theorem da_set_slots {w : Nat} {a : Alloc} {da da' : da_dyn_array_s} {obj : List Nat}
    {i : Nat} (hv : da_valid w da) (hi : i < 2 ^ w)
    (h : da_set w a da obj i = .ok (DA_SUCCESS, da')) :
    da'.size = da.size ∧ da_slot da' i = obj.take da.size ∧ i < da'.index ∧
      da'.index < 2 ^ w ∧ i * da.size < 2 ^ w ∧ (∃ b', da'.base = some b') ∧
      ∀ j, j ≠ i → j < da.nmemb → da_slot da' j = da_slot da j := by
  have hv' := da_set_valid hv hi h
  obtain ⟨mid, b', hcase, him, hms, hmi, hmv, hm, rfl⟩ := da_set_success hv hi h
  obtain ⟨bm, hbm, hin, _, hlen, hout, hat⟩ := memcpy_ok hm
  obtain ⟨_, _, _, _, bm', hbm', hbml, hbmw⟩ := hmv
  have hbb : bm' = bm := Option.some.inj (hbm'.symm.trans hbm)
  subst hbb
  refine ⟨rfl, hat, ?_, hv'.2.2.1, by omega, ⟨b', rfl⟩, ?_⟩
  · show i < (if da.index ≤ i then i + 1 else da.index)
    split <;> omega
  · intro j hne hj
    have hstep : ∀ x : Nat, da_slot ⟨some b', mid.nmemb, da.size, x⟩ j = da_slot mid j := by
      intro x
      unfold da_slot da_peek
      simp only [hbm, hms, Option.getD_some]
      apply drop_take_congr
      intro k hk1 hk2
      exact hout k (slot_disjoint hne hk1 hk2)
    refine (hstep _).trans ?_
    rcases hcase with ⟨_, rfl⟩ | ⟨hle, _, hr⟩
    · rfl
    · exact da_resize_slot hv hr hj (by omega)

/-! ## Sample inputs are valid containers -/

theorem sample_da_valid : da_valid 64 sample_da :=
  ⟨by decide, by decide, by decide, by decide, _, rfl, rfl, by decide⟩

theorem sample_full_valid : da_valid 64 sample_full :=
  ⟨by decide, by decide, by decide, by decide, _, rfl, rfl, by decide⟩

theorem sample_bytes_valid : da_valid 64 sample_bytes :=
  ⟨by decide, by decide, by decide, by decide, _, rfl, rfl, by decide⟩

/-- When the byte size wraps, `da_resize` reports failure and changes nothing. -/
theorem da_resize_wrap {w : Nat} (a : Alloc) {da : da_dyn_array_s} {n : Nat}
    (hs : 0 < da.size) (hov : 2 ^ w ≤ n * da.size) :
    da_resize w a da n = .ok (DA_FAILURE, da) := by
  unfold da_resize
  have h0 : da.size ≠ 0 := Nat.pos_iff_ne_zero.mp hs
  have h1 : (n * da.size) % 2 ^ w / da.size ≠ n := mul_mod_div_ne_of_wrap hov (two_pow_pos w)
  simp only [h0, h1, if_false]

/-- When the capacity asked for by the growth step is a `size_t` value but its
byte size is not, `da_set` reports failure and changes nothing. -/
theorem da_set_byte_overflow {w : Nat} (a : Alloc) {da : da_dyn_array_s} (obj : List Nat)
    {i : Nat} (hi : da.nmemb ≤ i) (hsum : da.nmemb + i + 1 < 2 ^ w) (hs : 0 < da.size)
    (hov : 2 ^ w ≤ (da.nmemb + i + 1) * da.size) :
    da_set w a da obj i = .ok (DA_FAILURE, da) := by
  rw [da_set_unfold_grow hi, Nat.mod_eq_of_lt hsum, da_resize_wrap a hs hov]
  simp

/-! ## Allocation outcomes and `da_resize` -/

theorem realloc_of_ok {a : Alloc} (h : a.ok = true) (p : Option (List Nat)) (n : Nat) :
    ∃ t, realloc a p n = some t := by
  unfold realloc
  simp [h]

theorem realloc_of_not_ok {a : Alloc} (h : a.ok = false) (p : Option (List Nat)) (n : Nat) :
    realloc a p n = none := by
  unfold realloc
  simp [h]

/-- With a zero element size `da_resize` divides by zero, whatever the count. -/
theorem da_resize_size_zero (w : Nat) (a : Alloc) {da : da_dyn_array_s} (n : Nat)
    (h : da.size = 0) : da_resize w a da n = .error .div_by_zero := by
  unfold da_resize
  simp [h]

/-- With a positive element size `da_resize` returns: it reports failure, or
success with the new block installed. -/
theorem da_resize_total (w : Nat) (a : Alloc) {da : da_dyn_array_s} (n : Nat)
    (hs : 0 < da.size) :
    (∃ da', da_resize w a da n = .ok (DA_FAILURE, da')) ∨
      ∃ tmp, n * da.size < 2 ^ w ∧ realloc a da.base (n * da.size) = some tmp ∧
        da_resize w a da n =
          .ok (DA_SUCCESS, ⟨some tmp, n, da.size, min da.index n⟩) := by
  have h0 : da.size ≠ 0 := Nat.pos_iff_ne_zero.mp hs
  by_cases hc : (n * da.size) % 2 ^ w / da.size = n
  · have hlt : n * da.size < 2 ^ w := mul_lt_of_mod_div_eq (two_pow_pos w) hc
    have hmod : (n * da.size) % 2 ^ w = n * da.size := Nat.mod_eq_of_lt hlt
    rw [hmod] at hc
    cases hr : realloc a da.base (n * da.size) with
    | none =>
      left
      unfold da_resize
      simp only [h0, if_false, hmod, hc, if_true, hr]
      exact ⟨_, rfl⟩
    | some tmp =>
      right
      refine ⟨tmp, hlt, rfl, ?_⟩
      unfold da_resize
      simp only [h0, if_false, hmod, hc, if_true, hr]
      by_cases hlt2 : n < da.index
      · simp only [hlt2, if_true, Nat.min_eq_right (Nat.le_of_lt hlt2)]
      · simp only [hlt2, if_false, Nat.min_eq_left (Nat.le_of_not_lt hlt2)]
  · left
    unfold da_resize
    simp only [h0, if_false, hc]
    exact ⟨_, rfl⟩

/-- When the byte size fits and the allocator grants the request, `da_resize`
reports success. -/
theorem da_resize_fits (w : Nat) {a : Alloc} {da : da_dyn_array_s} (n : Nat)
    (hs : 0 < da.size) (hfit : n * da.size < 2 ^ w) (hok : a.ok = true) :
    ∃ tmp, realloc a da.base (n * da.size) = some tmp ∧
      da_resize w a da n = .ok (DA_SUCCESS, ⟨some tmp, n, da.size, min da.index n⟩) := by
  obtain ⟨t, ht⟩ := realloc_of_ok hok da.base (n * da.size)
  refine ⟨t, ht, ?_⟩
  have h0 : da.size ≠ 0 := Nat.pos_iff_ne_zero.mp hs
  have hmod : (n * da.size) % 2 ^ w = n * da.size := Nat.mod_eq_of_lt hfit
  have hc : n * da.size / da.size = n := Nat.mul_div_cancel n hs
  unfold da_resize
  simp only [h0, if_false, hmod, hc, if_true, ht]
  by_cases hlt2 : n < da.index
  · simp only [hlt2, if_true, Nat.min_eq_right (Nat.le_of_lt hlt2)]
  · simp only [hlt2, if_false, Nat.min_eq_left (Nat.le_of_not_lt hlt2)]

/-- When the allocator refuses, `da_resize` reports failure. -/
theorem da_resize_refused (w : Nat) {a : Alloc} {da : da_dyn_array_s} (n : Nat)
    (hs : 0 < da.size) (hok : a.ok = false) :
    ∃ da', da_resize w a da n = .ok (DA_FAILURE, da') := by
  rcases da_resize_total w a n hs with hf | ⟨tmp, _, hr, _⟩
  · exact hf
  · rw [realloc_of_not_ok hok] at hr
    exact absurd hr (by simp)

/-- Every `da_resize` that returns leaves the element size as it was. -/
theorem da_resize_size {w : Nat} {a : Alloc} {da da' : da_dyn_array_s} {n : Nat} {st : Int}
    (h : da_resize w a da n = .ok (st, da')) : da'.size = da.size := by
  rcases da_resize_ok h with hst | ⟨_, _, hsz, _⟩
  · subst hst
    obtain ⟨_, _, tmp, _, rfl⟩ := da_resize_success h
    rfl
  · exact hsz

/-- The store half of `da_set`: from a state `mid` and a status other than
`DA_FAILURE`, a result that is returned keeps capacity and element size of
`mid` and the status, and no result is a division by zero. -/
theorem da_set_store (w : Nat) (mid : da_dyn_array_s) (obj : List Nat) (i : Nat) (st : Int)
    {res : Except Fault (Int × da_dyn_array_s)}
    (h : (match memcpy mid.base ((i * mid.size) % 2 ^ w) obj mid.size with
      | .error f => .error f
      | .ok b =>
        if i ≥ mid.index then
          .ok (st, { mid with base := some b, index := (i + 1) % 2 ^ w })
        else .ok (st, { mid with base := some b })) = res) :
    res ≠ .error .div_by_zero ∧
      ∀ st' da', res = .ok (st', da') →
        st' = st ∧ da'.size = mid.size ∧ da'.nmemb = mid.nmemb := by
  subst h
  cases hm : memcpy mid.base ((i * mid.size) % 2 ^ w) obj mid.size with
  | error f =>
    refine ⟨?_, ?_⟩
    · intro hf
      simp only [Except.error.injEq] at hf
      subst hf
      unfold memcpy at hm
      cases hb : mid.base with
      | none => rw [hb] at hm; simp at hm
      | some b =>
        rw [hb] at hm
        simp only at hm
        split at hm <;> simp at hm
    · intro st' da' hres
      simp at hres
  | ok b =>
    simp only
    by_cases hge : i ≥ mid.index
    · simp only [hge, if_true]
      refine ⟨by simp, ?_⟩
      intro st' da' hres
      simp only [Except.ok.injEq, Prod.mk.injEq] at hres
      rw [← hres.2]
      exact ⟨hres.1.symm, rfl, rfl⟩
    · simp only [hge, if_false]
      refine ⟨by simp, ?_⟩
      intro st' da' hres
      simp only [Except.ok.injEq, Prod.mk.injEq] at hres
      rw [← hres.2]
      exact ⟨hres.1.symm, rfl, rfl⟩

/-- Every `da_set` that returns leaves the element size as it was. -/
theorem da_set_size {w : Nat} {a : Alloc} {da da' : da_dyn_array_s} {obj : List Nat} {i : Nat}
    {st : Int} (h : da_set w a da obj i = .ok (st, da')) : da'.size = da.size := by
  by_cases hsmall : i < da.nmemb
  · rw [da_set_unfold_small hsmall] at h
    exact ((da_set_store w da obj i DA_SUCCESS h).2 st da' rfl).2.1
  · have hbig : da.nmemb ≤ i := Nat.le_of_not_lt hsmall
    rw [da_set_unfold_grow hbig] at h
    cases hr : da_resize w a da ((da.nmemb + i + 1) % 2 ^ w) with
    | error f => rw [hr] at h; simp at h
    | ok r =>
      obtain ⟨s1, mid⟩ := r
      rw [hr] at h
      simp only at h
      have hms := da_resize_size hr
      by_cases hst : s1 ≠ DA_FAILURE
      · rw [if_pos hst] at h
        rw [← hms]
        exact ((da_set_store w mid obj i s1 h).2 st da' rfl).2.1
      · rw [if_neg hst] at h
        simp only [Except.ok.injEq, Prod.mk.injEq] at h
        rw [← h.2]
        exact hms

/-- With a positive element size `da_set` never divides by zero. -/
theorem da_set_no_div (w : Nat) (a : Alloc) {da : da_dyn_array_s} (obj : List Nat) (i : Nat)
    (hs : 0 < da.size) : da_set w a da obj i ≠ .error .div_by_zero := by
  by_cases hsmall : i < da.nmemb
  · rw [da_set_unfold_small hsmall]
    exact (da_set_store w da obj i DA_SUCCESS rfl).1
  · have hbig : da.nmemb ≤ i := Nat.le_of_not_lt hsmall
    rw [da_set_unfold_grow hbig]
    rcases da_resize_total w a ((da.nmemb + i + 1) % 2 ^ w) hs with ⟨_, hf⟩ | ⟨tmp, _, _, hres⟩
    · rw [hf]
      simp
    · rw [hres]
      simp only [ne_eq, DA_SUCCESS_ne_DA_FAILURE, not_false_eq_true, if_true]
      exact (da_set_store w ⟨some tmp, (da.nmemb + i + 1) % 2 ^ w, da.size,
        min da.index ((da.nmemb + i + 1) % 2 ^ w)⟩ obj i DA_SUCCESS rfl).1

/-- With a positive element size `da_create` returns `NULL` or a container
that is empty and has the capacity and element size asked for. -/
theorem da_create_cases (w : Nat) (m : Option (Nat × Nat)) (a : Alloc) (n s : Nat)
    (hs : 0 < s) :
    da_create w m a n s = .ok none ∨
      ∃ g tmp, m = some g ∧ n * s < 2 ^ w ∧ realloc a none (n * s) = some tmp ∧
        da_create w m a n s = .ok (some ⟨some tmp, n, s, 0⟩) := by
  cases m with
  | none => exact Or.inl rfl
  | some g =>
    have hs' : 0 < (⟨none, g.1, s, g.2⟩ : da_dyn_array_s).size := hs
    rcases da_resize_total w a n hs' with ⟨_, hf⟩ | ⟨tmp, hlt, hr, hres⟩
    · left
      unfold da_create
      simp only [hf, if_true]
    · right
      refine ⟨g, tmp, rfl, hlt, hr, ?_⟩
      unfold da_create
      simp only [hres, DA_SUCCESS_ne_DA_FAILURE, if_false]

/-- With a zero element size and a structure that was allocated, `da_create`
divides by zero. -/
theorem da_create_size_zero (w : Nat) (g : Nat × Nat) (a : Alloc) (n : Nat) :
    da_create w (some g) a n 0 = .error .div_by_zero := by
  have h : da_resize w a ⟨none, g.1, 0, g.2⟩ n = .error .div_by_zero :=
    da_resize_size_zero w a n rfl
  unfold da_create
  simp only [h]

/-! ## One step of the iterator -/

theorem da_it_next_lt (w : Nat) {da : da_dyn_array_s} {b : List Nat} (hb : da.base = some b)
    (hw : da.index < 2 ^ w) {it : da_iterator} (h : it.index < da.index) :
    da_it_next w da it =
      .ok (some ((it.index * da.size) % 2 ^ w), { index := it.index + 1 }) := by
  have h0 : ¬ (it.index ≥ da.index) := by omega
  have h1 : (it.index + 1) % 2 ^ w = it.index + 1 := Nat.mod_eq_of_lt (by omega)
  simp only [da_it_next, hb, h0, if_false, h1]

theorem da_it_next_ge (w : Nat) {da : da_dyn_array_s} {b : List Nat} (hb : da.base = some b)
    {it : da_iterator} (h : da.index ≤ it.index) : da_it_next w da it = .ok (none, it) := by
  have h0 : it.index ≥ da.index := h
  simp only [da_it_next, hb, h0, if_true]

/-- In a valid container the slot at an index below the length lies inside
the buffer, below the capacity, and its byte offset does not wrap. -/
theorem da_valid_offset {w : Nat} {da : da_dyn_array_s} (hv : da_valid w da) {i : Nat}
    (h : i < da.index) :
    (i * da.size) % 2 ^ w = i * da.size ∧ i < da.nmemb ∧
      ∃ b, da.base = some b ∧ i * da.size + da.size ≤ b.length := by
  obtain ⟨_, _, _, hle, b, hb, hbl, hbw⟩ := hv
  have hin : i < da.nmemb := Nat.lt_of_lt_of_le h hle
  have hoff : i * da.size + da.size ≤ da.nmemb * da.size := by
    have : (i + 1) * da.size ≤ da.nmemb * da.size := Nat.mul_le_mul_right _ hin
    rw [Nat.add_mul, Nat.one_mul] at this
    exact this
  exact ⟨Nat.mod_eq_of_lt (by omega), hin, b, hb, by omega⟩

/-- Calls `1 .. length` of a fresh iterator: the `k`-th one returns the pointer
to slot `k - 1` and leaves the cursor at `k`. -/
theorem da_it_run_fresh_le {w : Nat} {da : da_dyn_array_s} (hv : da_valid w da) (k : Nat)
    (hk1 : 1 ≤ k) (hk2 : k ≤ da.index) :
    da_it_run w da { index := 0 } k = .ok (some ((k - 1) * da.size), { index := k }) := by
  obtain ⟨n, rfl⟩ : ∃ n, k = n + 1 := ⟨k - 1, by omega⟩
  obtain ⟨hmod, _, b, hb, _⟩ := da_valid_offset hv (Nat.lt_of_succ_le hk2)
  have hrun := da_it_run_succ w hb hv.2.2.1 { index := 0 } n
    (by simp only [Nat.zero_add]; omega)
  simp only [Nat.zero_add, hmod] at hrun
  rw [hrun, Nat.add_sub_cancel]

/-- Calls past the length of a fresh iterator return `NULL` and leave the
cursor at the length. -/
theorem da_it_run_fresh_gt {w : Nat} {da : da_dyn_array_s} (hv : da_valid w da) (d : Nat) :
    da_it_run w da { index := 0 } (da.index + 1 + d) = .ok (none, { index := da.index }) := by
  obtain ⟨b, hb, _⟩ := hv.2.2.2.2
  induction d with
  | zero =>
    have hprev : ∃ r, da_it_run w da { index := 0 } da.index = .ok (r, { index := da.index }) := by
      by_cases h0 : da.index = 0
      · rw [h0]
        exact ⟨none, rfl⟩
      · exact ⟨_, da_it_run_fresh_le hv da.index (by omega) (Nat.le_refl _)⟩
    obtain ⟨r, hr⟩ := hprev
    rw [Nat.add_zero, da_it_run, hr]
    exact da_it_next_ge w hb (Nat.le_refl _)
  | succ d ih =>
    rw [← Nat.add_assoc, da_it_run, ih]
    exact da_it_next_ge w hb (Nat.le_refl _)

/-! ## Runs of `da_add` -/

/-- A run of `da_add` calls that reports success was a first successful call
followed by a successful run. -/
theorem da_add_list_cons {w : Nat} {da da' : da_dyn_array_s} {p : Alloc × List Nat}
    {rest : List (Alloc × List Nat)}
    (h : da_add_list w da (p :: rest) = .ok (DA_SUCCESS, da')) :
    ∃ mid, da_add w p.1 da p.2 = .ok (DA_SUCCESS, mid) ∧
      da_add_list w mid rest = .ok (DA_SUCCESS, da') := by
  rw [da_add_list] at h
  cases hr : da_add w p.1 da p.2 with
  | error f => rw [hr] at h; simp at h
  | ok r =>
    obtain ⟨st, mid⟩ := r
    rw [hr] at h
    simp only at h
    by_cases hst : st = DA_SUCCESS
    · subst hst
      rw [if_pos rfl] at h
      exact ⟨mid, rfl, h⟩
    · rw [if_neg hst] at h
      simp only [Except.ok.injEq, Prod.mk.injEq] at h
      exact absurd h.1 hst

/-- One successful `da_add` on a valid container: the element lands in the slot
at the old length, the length grows by one, the slots below keep their bytes,
and the capacity stays when the length was below it and becomes
`2 * capacity + 1` when the container was full. -/
theorem da_add_step {w : Nat} {a : Alloc} {da da' : da_dyn_array_s} {e : List Nat}
    (hv : da_valid w da) (he : e.length = da.size)
    (h : da_add w a da e = .ok (DA_SUCCESS, da')) :
    da_valid w da' ∧ da'.size = da.size ∧ da'.index = da.index + 1 ∧
      da_slot da' da.index = e ∧ (∀ j, j < da.index → da_slot da' j = da_slot da j) ∧
      (da.index < da.nmemb → da'.nmemb = da.nmemb) ∧
      (da.nmemb ≤ da.index → da'.nmemb = 2 * da.nmemb + 1) := by
  have hi : da.index < 2 ^ w := hv.2.2.1
  have hle : da.index ≤ da.nmemb := hv.2.2.2.1
  have h' : da_set w a da e da.index = .ok (DA_SUCCESS, da') := h
  have hv' := da_set_valid hv hi h'
  obtain ⟨hsz, hslot, _, _, _, _, hframe⟩ := da_set_slots hv hi h'
  have htake : e.take da.size = e := by
    rw [← he]
    exact List.take_length e
  rw [htake] at hslot
  refine ⟨hv', hsz, ?_, hslot, ?_, ?_, ?_⟩
  · obtain ⟨mid, b2, _, _, _, _, _, _, rfl⟩ := da_set_success hv hi h'
    show (if da.index ≤ da.index then da.index + 1 else da.index) = da.index + 1
    rw [if_pos (Nat.le_refl _)]
  · intro j hj
    exact hframe j (Nat.ne_of_lt hj) (Nat.lt_of_lt_of_le hj hle)
  · intro hlt
    obtain ⟨mid, b2, hcase, _, _, _, _, _, rfl⟩ := da_set_success hv hi h'
    rcases hcase with ⟨_, hmid⟩ | ⟨hbig, _, _⟩
    · show mid.nmemb = da.nmemb
      rw [hmid]
    · omega
  · intro hfull
    obtain ⟨mid, b2, hcase, _, _, _, _, _, rfl⟩ := da_set_success hv hi h'
    rcases hcase with ⟨hsmall, _⟩ | ⟨_, _, hr⟩
    · omega
    · obtain ⟨_, _, tmp, _, rfl⟩ := da_resize_success hr
      show da.nmemb + da.index + 1 = 2 * da.nmemb + 1
      omega

/-- A successful run of `da_add` calls on a valid container: the length grows
by the number of calls, the slots below the old length keep their bytes, and
the `k`-th element appended is in the slot `k` places above the old length. -/
theorem da_add_list_spec {w : Nat} (l : List (Alloc × List Nat)) :
    ∀ (da da' : da_dyn_array_s), da_valid w da → (∀ p ∈ l, p.2.length = da.size) →
      da_add_list w da l = .ok (DA_SUCCESS, da') →
      da_valid w da' ∧ da'.size = da.size ∧ da'.index = da.index + l.length ∧
        (∀ j, j < da.index → da_slot da' j = da_slot da j) ∧
        (∀ k (hk : k < l.length), da_slot da' (da.index + k) = (l.get ⟨k, hk⟩).2) := by
  induction l with
  | nil =>
    intro da da' hv _ h
    simp only [da_add_list, Except.ok.injEq, Prod.mk.injEq, true_and] at h
    subst h
    refine ⟨hv, rfl, rfl, fun _ _ => rfl, ?_⟩
    intro k hk
    exact absurd hk (Nat.not_lt_zero k)
  | cons p rest ih =>
    intro da da' hv hl h
    obtain ⟨mid, h1, h2⟩ := da_add_list_cons h
    have hp : p.2.length = da.size := hl p (List.mem_cons_self _ _)
    obtain ⟨hmv, hms, hmi, hmslot, hmframe, _, _⟩ := da_add_step hv hp h1
    have hl' : ∀ q ∈ rest, q.2.length = mid.size := by
      intro q hq
      rw [hms]
      exact hl q (List.mem_cons_of_mem _ hq)
    obtain ⟨hv', hs', hi', hframe', hnew'⟩ := ih mid da' hmv hl' h2
    refine ⟨hv', hs'.trans hms, ?_, ?_, ?_⟩
    · rw [hi', hmi, List.length_cons]
      omega
    · intro j hj
      rw [hframe' j (by omega)]
      exact hmframe j hj
    · intro k hk
      cases k with
      | zero =>
        rw [Nat.add_zero, hframe' da.index (by omega)]
        exact hmslot
      | succ k =>
        have hk' : k < rest.length := Nat.lt_of_succ_lt_succ hk
        have := hnew' k hk'
        rw [hmi] at this
        have e : da.index + (k + 1) = da.index + 1 + k := by omega
        rw [e]
        exact this

/-- Capacities under a run of successful `da_add` calls: a capacity of the form
`2^k - 1` whose exponent is the least one that covers the length stays of that
form, and the exponent grows by the number of calls that resize. -/
theorem da_add_list_growth {w : Nat} (l : List (Alloc × List Nat)) :
    ∀ (da da' : da_dyn_array_s) (k : Nat), da_valid w da →
      (∀ p ∈ l, p.2.length = da.size) → da.nmemb + 1 = 2 ^ k →
      (k = 0 ∨ 2 ^ (k - 1) ≤ da.index) →
      da_add_list w da l = .ok (DA_SUCCESS, da') →
      ∃ k', da'.nmemb + 1 = 2 ^ k' ∧ (k' = 0 ∨ 2 ^ (k' - 1) ≤ da'.index) ∧
        da_add_resizes w da l + k = k' := by
  induction l with
  | nil =>
    intro da da' k _ _ hcap hleast h
    simp only [da_add_list, Except.ok.injEq, Prod.mk.injEq, true_and] at h
    subst h
    exact ⟨k, hcap, hleast, by simp only [da_add_resizes, Nat.zero_add]⟩
  | cons p rest ih =>
    intro da da' k hv hl hcap hleast h
    obtain ⟨mid, h1, h2⟩ := da_add_list_cons h
    have hp : p.2.length = da.size := hl p (List.mem_cons_self _ _)
    obtain ⟨hmv, hms, hmi, _, _, hkeep, hgrow⟩ := da_add_step hv hp h1
    have hl' : ∀ q ∈ rest, q.2.length = mid.size := by
      intro q hq
      rw [hms]
      exact hl q (List.mem_cons_of_mem _ hq)
    have hle : da.index ≤ da.nmemb := hv.2.2.2.1
    have hcount : da_add_resizes w da (p :: rest) =
        (if da.index ≥ da.nmemb then 1 else 0) + da_add_resizes w mid rest := by
      rw [da_add_resizes, h1]
      simp only [if_true]
    by_cases hfull : da.nmemb ≤ da.index
    · have hcap' : mid.nmemb + 1 = 2 ^ (k + 1) := by
        rw [hgrow hfull, Nat.pow_succ]
        omega
      have hleast' : k + 1 = 0 ∨ 2 ^ (k + 1 - 1) ≤ mid.index := by
        right
        rw [Nat.add_sub_cancel, hmi]
        omega
      obtain ⟨k', hc', hl2, hcnt⟩ := ih mid da' (k + 1) hmv hl' hcap' hleast' h2
      refine ⟨k', hc', hl2, ?_⟩
      have hge : da.index ≥ da.nmemb := hfull
      rw [hcount, if_pos hge]
      omega
    · have hlt : da.index < da.nmemb := Nat.lt_of_not_le hfull
      have hcap' : mid.nmemb + 1 = 2 ^ k := by rw [hkeep hlt]; exact hcap
      have hleast' : k = 0 ∨ 2 ^ (k - 1) ≤ mid.index := by
        rcases hleast with h0 | h0
        · exact Or.inl h0
        · exact Or.inr (by omega)
      obtain ⟨k', hc', hl2, hcnt⟩ := ih mid da' k hmv hl' hcap' hleast' h2
      refine ⟨k', hc', hl2, ?_⟩
      have hge : ¬ (da.index ≥ da.nmemb) := hfull
      rw [hcount, if_neg hge]
      omega

/-! ## Blocks cut into elements -/

theorem flatten_length_of_all {s : Nat} (cs : List (List Nat)) (h : ∀ c ∈ cs, c.length = s) :
    cs.flatten.length = cs.length * s := by
  induction cs with
  | nil => simp
  | cons c cs ih =>
    have hc : c.length = s := h c (List.mem_cons_self _ _)
    have ih' := ih (fun d hd => h d (List.mem_cons_of_mem _ hd))
    rw [List.flatten_cons, List.length_append, hc, ih', List.length_cons, Nat.add_mul,
      Nat.one_mul, Nat.add_comm]

/-- Reading element `i` out of a concatenation of elements of `s` bytes each. -/
theorem flatten_slot {s : Nat} (rest : List Nat) (cs : List (List Nat)) :
    (∀ c ∈ cs, c.length = s) → ∀ i (hi : i < cs.length),
      (((cs.flatten ++ rest).drop (i * s)).take s) = cs.get ⟨i, hi⟩ := by
  induction cs with
  | nil =>
    intro _ i hi
    exact absurd hi (Nat.not_lt_zero i)
  | cons c cs ih =>
    intro h i hi
    have hc : c.length = s := h c (List.mem_cons_self _ _)
    cases i with
    | zero =>
      rw [Nat.zero_mul, List.drop_zero, List.flatten_cons, List.append_assoc]
      exact List.take_left' hc
    | succ i =>
      have hi' : i < cs.length := Nat.lt_of_succ_lt_succ hi
      have e : (i + 1) * s = s + i * s := by rw [Nat.add_mul, Nat.one_mul, Nat.add_comm]
      rw [e, ← List.drop_drop, List.flatten_cons, List.append_assoc, List.drop_left' hc]
      exact ih (fun d hd => h d (List.mem_cons_of_mem _ hd)) i hi'

/-- Cutting the first `n` elements of `s` bytes out of a block that holds them
gives `n` lists of `s` bytes. -/
theorem chunk_length {b : List Nat} {n s : Nat} (hin : n * s ≤ b.length) :
    ∀ c ∈ (List.range n).map (fun i => (b.drop (i * s)).take s), c.length = s := by
  intro c hc
  simp only [List.mem_map, List.mem_range] at hc
  obtain ⟨i, hi, rfl⟩ := hc
  have : i * s + s ≤ n * s := by
    have h1 : (i + 1) * s ≤ n * s := Nat.mul_le_mul_right _ hi
    rw [Nat.add_mul, Nat.one_mul] at h1
    exact h1
  simp only [List.length_take, List.length_drop]
  omega

/-- What `qsort` leaves in the block: the elements `0 .. n - 1` read in order
are the sorted list of the elements that were there, the bytes from offset
`n * s` on are as before, and the block keeps its length. -/
theorem qsort_spec {b : List Nat} {n s : Nat} (compar : List Nat → List Nat → Int)
    (hin : n * s ≤ b.length) :
    ∃ b', qsort (some b) n s compar = .ok b' ∧ b'.length = b.length ∧
      b'.drop (n * s) = b.drop (n * s) ∧
      (List.range n).map (fun i => (b'.drop (i * s)).take s) =
        List.insertionSort (fun x y => compar x y ≤ 0)
          ((List.range n).map (fun i => (b.drop (i * s)).take s)) := by
  have hq : qsort (some b) n s compar =
      .ok ((List.insertionSort (fun x y => compar x y ≤ 0)
          ((List.range n).map (fun i => (b.drop (i * s)).take s))).flatten ++
        b.drop (n * s)) := by
    unfold qsort
    simp only [hin, if_true]
  obtain ⟨cs, hcs⟩ : ∃ cs, cs = List.insertionSort (fun x y => compar x y ≤ 0)
      ((List.range n).map (fun i => (b.drop (i * s)).take s)) := ⟨_, rfl⟩
  rw [← hcs] at hq ⊢
  have hall : ∀ c ∈ cs, c.length = s := by
    intro c hc
    rw [hcs] at hc
    exact chunk_length hin c ((List.mem_insertionSort _).mp hc)
  have hlen : cs.length = n := by
    rw [hcs, List.length_insertionSort, List.length_map, List.length_range]
  have hflat := flatten_length_of_all cs hall
  rw [hlen] at hflat
  refine ⟨cs.flatten ++ b.drop (n * s), hq, ?_, ?_, ?_⟩
  · rw [List.length_append, hflat, List.length_drop]
    omega
  · exact List.drop_left' hflat
  · apply List.ext_get
    · rw [List.length_map, List.length_range, hlen]
    · intro i h1 h2
      rw [List.get_eq_getElem, List.getElem_map, List.getElem_range]
      exact flatten_slot _ cs hall i h2

/-- What `da_sort` does to a valid container: the fields other than the buffer
stay, the slots from the length on stay, and the slots below the length, read
in order, are the sorted list of what they held. -/
theorem da_sort_spec {w : Nat} {da : da_dyn_array_s} (compar : List Nat → List Nat → Int)
    (hv : da_valid w da) :
    ∃ da', da_sort da compar = .ok da' ∧ da_valid w da' ∧
      da'.index = da.index ∧ da'.nmemb = da.nmemb ∧ da'.size = da.size ∧
      (∀ j, da.index ≤ j → da_slot da' j = da_slot da j) ∧
      da_slots da' da.index =
        List.insertionSort (fun x y => compar x y ≤ 0) (da_slots da da.index) := by
  obtain ⟨h1, h2, h3, hle, b, hb, hbl, hbw⟩ := hv
  have hin : da.index * da.size ≤ b.length := by
    rw [hbl]
    exact Nat.mul_le_mul_right _ hle
  obtain ⟨b', hq, hlen, hdrop, hmap⟩ := qsort_spec compar hin
  have hold : da_slots da da.index =
      (List.range da.index).map (fun i => (b.drop (i * da.size)).take da.size) := by
    unfold da_slots da_slot da_peek
    simp only [hb, Option.getD_some]
  refine ⟨⟨some b', da.nmemb, da.size, da.index⟩, ?_, ?_, rfl, rfl, rfl, ?_, ?_⟩
  · unfold da_sort
    rw [hb, hq]
  · exact ⟨h1, h2, h3, hle, b', rfl, by rw [hlen]; exact hbl, by rw [hlen]; exact hbw⟩
  · intro j hj
    have e : j * da.size = da.index * da.size + (j - da.index) * da.size := by
      rw [← Nat.add_mul]
      congr 1
      omega
    unfold da_slot da_peek
    simp only [hb, Option.getD_some]
    rw [e, ← List.drop_drop, ← List.drop_drop, hdrop]
  · rw [hold, ← hmap]
    rfl

/-! ## `da_set` on runs that stay inside the buffer

In the model a `memcpy` outside the block ends the run, so a `da_set` that
returns `DA_SUCCESS` has asked for a capacity `capacity + index + 1` that did
not wrap (`add_no_wrap_of_in_bounds`).  The lemmas of this section describe
those runs only. -/

/-- Length after a `da_set` that returned `DA_SUCCESS` without leaving the
buffer: `i + 1` if `i >= old length`, unchanged otherwise. -/
theorem da_set_length_in_bounds (w : Nat) (a : Alloc) (da da' : da_dyn_array_s) (obj : List Nat) (i : Nat)
    (hv : da_valid w da) (hi : i < 2 ^ w)
    (h : da_set w a da obj i = .ok (DA_SUCCESS, da')) :
    (da.index ≤ i → da'.index = i + 1) ∧ (i < da.index → da'.index = da.index) := by
  obtain ⟨mid, b', _, _, _, _, _, _, rfl⟩ := da_set_success hv hi h
  refine ⟨?_, ?_⟩
  · intro hle
    show (if da.index ≤ i then i + 1 else da.index) = i + 1
    rw [if_pos hle]
  · intro hlt
    show (if da.index ≤ i then i + 1 else da.index) = da.index
    rw [if_neg (Nat.not_le_of_lt hlt)]

/-- Capacity after a `da_set` that returned `DA_SUCCESS` without leaving the
buffer: unchanged when `i < capacity`, `old capacity + i + 1` otherwise. -/
theorem da_set_capacity_in_bounds (w : Nat) (a : Alloc) (da da' : da_dyn_array_s) (obj : List Nat) (i : Nat)
    (hv : da_valid w da) (hi : i < 2 ^ w)
    (h : da_set w a da obj i = .ok (DA_SUCCESS, da')) :
    (i < da.nmemb → da'.nmemb = da.nmemb) ∧ (da.nmemb ≤ i → da'.nmemb = da.nmemb + i + 1) := by
  obtain ⟨mid, b', hcase, _, _, _, _, _, rfl⟩ := da_set_success hv hi h
  rcases hcase with ⟨hlt, rfl⟩ | ⟨hle, _, hr⟩
  · exact ⟨fun _ => rfl, fun hle => absurd hlt (Nat.not_lt_of_le hle)⟩
  · obtain ⟨_, _, tmp, _, rfl⟩ := da_resize_success hr
    exact ⟨fun hlt => absurd hlt (Nat.not_lt_of_le hle), fun _ => rfl⟩

/-- Frame of a `da_set` that returned `DA_SUCCESS` without leaving the buffer:
every slot `j != i` below the old capacity keeps its bytes, the element size
stays, and a write below the length leaves capacity and length alone. -/
theorem da_set_frame_in_bounds (w : Nat) (a : Alloc) (da da' : da_dyn_array_s) (obj : List Nat) (i : Nat)
    (hv : da_valid w da) (hi : i < 2 ^ w)
    (h : da_set w a da obj i = .ok (DA_SUCCESS, da')) :
    da'.size = da.size ∧
      (∀ j, j ≠ i → j < da.nmemb → da_slot da' j = da_slot da j) ∧
      (i < da.index → da'.nmemb = da.nmemb ∧ da'.index = da.index) := by
  refine ⟨(da_set_slots hv hi h).1, (da_set_slots hv hi h).2.2.2.2.2.2, ?_⟩
  intro hlt
  have hle : da.index ≤ da.nmemb := hv.2.2.2.1
  obtain ⟨mid, b', hcase, _, _, _, _, _, rfl⟩ := da_set_success hv hi h
  rcases hcase with ⟨_, hmid⟩ | ⟨hbig, _, _⟩
  · refine ⟨by rw [hmid], ?_⟩
    show (if da.index ≤ i then i + 1 else da.index) = da.index
    rw [if_neg (Nat.not_le_of_lt hlt)]
  · omega

/-- Reading back after a `da_set` that returned `DA_SUCCESS` without leaving
the buffer: slot `I` holds the element, and the `(I+1)`-th `da_it_next` of a
fresh iterator returns the pointer to it. -/
theorem da_set_read_back_in_bounds (w : Nat) (a : Alloc) (da da' : da_dyn_array_s) (E : List Nat)
    (i : Nat) (hv : da_valid w da) (hi : i < 2 ^ w) (hE : E.length = da.size)
    (h : da_set w a da E i = .ok (DA_SUCCESS, da')) :
    da_slot da' i = E ∧
      ∀ it, da_it_create true = some it →
        ∃ it', da_it_run w da' it (i + 1) = .ok (some (i * da'.size), it') ∧
          da_peek da' (i * da'.size) = E := by
  obtain ⟨hsz, hslot, hlt, hw, hoff, ⟨b', hb'⟩, _⟩ := da_set_slots hv hi h
  have htake : E.take da.size = E := by
    rw [← hE]
    exact List.take_length E
  rw [htake] at hslot
  refine ⟨hslot, ?_⟩
  intro it hit
  have hit0 : it = { index := 0 } := by
    simp only [da_it_create, if_true, Option.some.injEq] at hit
    exact hit.symm
  subst hit0
  refine ⟨{ index := 0 + i + 1 }, ?_, hslot⟩
  have hrun := da_it_run_succ w hb' hw { index := 0 } i (by simp only [Nat.zero_add]; exact hlt)
  rw [hrun]
  simp only [Nat.zero_add, hsz, Nat.mod_eq_of_lt hoff]

/-- When `da_set` returns `DA_FAILURE`: exactly when `i >= capacity` and the
growing `da_resize` reports failure.  Capacity, element size and length are
then as before, and so is the buffer, unless the capacity asked for,
`(capacity + i + 1) mod 2^w`, is 0 and the allocator released the block; that
needs a sum that wraps.  On a valid container and an element of at least
`element_size` bytes, `da_set` with `i < capacity` returns `DA_SUCCESS`. -/
theorem da_set_failure_cases (w : Nat) (a : Alloc) (da : da_dyn_array_s) (obj : List Nat)
    (i : Nat) :
    ((∃ da', da_set w a da obj i = .ok (DA_FAILURE, da')) ↔
      (da.nmemb ≤ i ∧
        ∃ da', da_resize w a da ((da.nmemb + i + 1) % 2 ^ w) = .ok (DA_FAILURE, da'))) ∧
    (∀ da', da_set w a da obj i = .ok (DA_FAILURE, da') →
      da'.nmemb = da.nmemb ∧ da'.size = da.size ∧ da'.index = da.index ∧
        (da' = da ∨
          ((da.nmemb + i + 1) % 2 ^ w = 0 ∧ a.zero_frees = true ∧ da'.base = some []))) ∧
    (da.nmemb + i + 1 < 2 ^ w →
      ∀ da', da_set w a da obj i = .ok (DA_FAILURE, da') → da' = da) ∧
    (da_valid w da → da.size ≤ obj.length → i < da.nmemb →
      ∃ da', da_set w a da obj i = .ok (DA_SUCCESS, da')) := by
  have key : ∀ da', da_set w a da obj i = .ok (DA_FAILURE, da') →
      da.nmemb ≤ i ∧
        da_resize w a da ((da.nmemb + i + 1) % 2 ^ w) = .ok (DA_FAILURE, da') := by
    intro da' h
    by_cases hsmall : i < da.nmemb
    · rw [da_set_unfold_small hsmall] at h
      cases hm : memcpy da.base ((i * da.size) % 2 ^ w) obj da.size with
      | error f => rw [hm] at h; simp at h
      | ok b' =>
        rw [hm] at h
        simp only at h
        split at h <;>
          simp only [Except.ok.injEq, Prod.mk.injEq] at h <;>
          exact absurd h.1 DA_SUCCESS_ne_DA_FAILURE
    · have hbig : da.nmemb ≤ i := Nat.le_of_not_lt hsmall
      rw [da_set_unfold_grow hbig] at h
      cases hr : da_resize w a da ((da.nmemb + i + 1) % 2 ^ w) with
      | error f => rw [hr] at h; simp at h
      | ok r =>
        obtain ⟨st, mid⟩ := r
        rw [hr] at h
        rcases da_resize_ok hr with hst | ⟨hst, _⟩
        · subst hst
          simp only [ne_eq, DA_SUCCESS_ne_DA_FAILURE, not_false_eq_true, if_true] at h
          cases hm : memcpy mid.base ((i * mid.size) % 2 ^ w) obj mid.size with
          | error f => rw [hm] at h; simp at h
          | ok b' =>
            rw [hm] at h
            simp only at h
            split at h <;>
              simp only [Except.ok.injEq, Prod.mk.injEq] at h <;>
              exact absurd h.1 DA_SUCCESS_ne_DA_FAILURE
        · subst hst
          simp only [ne_eq, not_true_eq_false, if_false, Except.ok.injEq, Prod.mk.injEq,
            true_and] at h
          subst h
          exact ⟨hbig, rfl⟩
  have key2 : ∀ da', da_set w a da obj i = .ok (DA_FAILURE, da') →
      da'.nmemb = da.nmemb ∧ da'.size = da.size ∧ da'.index = da.index ∧
        (da' = da ∨
          ((da.nmemb + i + 1) % 2 ^ w = 0 ∧ a.zero_frees = true ∧ da'.base = some [])) := by
    intro da' h
    rcases da_resize_ok (key da' h).2 with hst | ⟨_, h1, h2, h3, h4⟩
    · exact absurd hst.symm DA_SUCCESS_ne_DA_FAILURE
    · exact ⟨h1, h2, h3, h4⟩
  refine ⟨⟨?_, ?_⟩, key2, ?_, ?_⟩
  · rintro ⟨da', h⟩
    exact ⟨(key da' h).1, da', (key da' h).2⟩
  · rintro ⟨hbig, da', hr⟩
    refine ⟨da', ?_⟩
    rw [da_set_unfold_grow hbig, hr]
    simp
  · intro hnw da' h
    rcases (key2 da' h).2.2.2 with heq | ⟨h0, _, _⟩
    · exact heq
    · rw [Nat.mod_eq_of_lt hnw] at h0
      omega
  · intro hv hobj hsmall
    obtain ⟨_, _, _, _, b, hb, hbl, hbw⟩ := hv
    have hoff : i * da.size + da.size ≤ b.length := by
      have : (i + 1) * da.size ≤ da.nmemb * da.size := Nat.mul_le_mul_right _ hsmall
      rw [Nat.add_mul, Nat.one_mul] at this
      omega
    have hmod : (i * da.size) % 2 ^ w = i * da.size := Nat.mod_eq_of_lt (by omega)
    obtain ⟨r, hr⟩ := memcpy_some_ok b (i * da.size) da.size obj hoff hobj
    rw [da_set_unfold_small hsmall, hmod, hb, hr]
    simp only
    split
    · exact ⟨_, rfl⟩
    · exact ⟨_, rfl⟩

/-! ## The claims -/

/-- C1 (the code breaks it): `length <= capacity` does not survive every call.
On the container `da_create(5, 1)` returns, `da_set` at index `2^64 - 3` asks
`da_resize` for `(5 + (2^64 - 3) + 1) mod 2^64 = 3` elements, which succeeds and
leaves capacity 3; the `memcpy` that follows lies outside the 3-byte buffer,
and the length the source then stores is `2^64 - 2`, above the capacity 3. -/
theorem C1_set_index_wraps_growth :
    da_create 64 (some (7, 9)) alloc_ok 5 1 = .ok (some sample_bytes) ∧
    (sample_bytes.nmemb + (2 ^ 64 - 3) + 1) % 2 ^ 64 = 3 ∧
    da_resize 64 alloc_ok sample_bytes 3 = .ok (DA_SUCCESS, ⟨some [170, 170, 170], 3, 1, 0⟩) ∧
    da_set 64 alloc_ok sample_bytes [7] (2 ^ 64 - 3) = .error .out_of_bounds ∧
    3 < (2 ^ 64 - 3 + 1) % 2 ^ 64 :=
  ⟨rfl, by decide, rfl, rfl, by decide⟩

/-- C2: on a container with `element_size > 0`, a `da_resize` to a count whose
byte size `new_count * element_size` does not fit in `size_t` returns
`DA_FAILURE` and leaves the whole container (capacity, length, element size,
buffer) as it was. -/
theorem C2_resize_wrap_fails (w : Nat) (a : Alloc) (da : da_dyn_array_s) (n : Nat)
    (hs : 0 < da.size) (hov : 2 ^ w ≤ n * da.size) :
    da_resize w a da n = .ok (DA_FAILURE, da) :=
  da_resize_wrap a hs hov

theorem C2_resize_wrap_fails_witness :
    0 < sample_da.size ∧ 2 ^ 64 ≤ 2 ^ 63 * sample_da.size ∧
      da_resize 64 alloc_ok sample_da (2 ^ 63) = .ok (DA_FAILURE, sample_da) :=
  ⟨by decide, by decide,
    C2_resize_wrap_fails 64 alloc_ok sample_da (2 ^ 63) (by decide) (by decide)⟩

/-- C3 (the code breaks it): a `da_set` whose requested capacity
`capacity + index + 1` has a byte size that does not fit in `size_t` does not
always return `DA_FAILURE`.  On a full container of five 4-byte elements and
index `2^64 - 3` the byte size `(5 + (2^64 - 3) + 1) * 4` is not representable,
yet the sum wraps to 3, `da_resize` to 3 elements succeeds and truncates the
container, and `da_set` goes on to a `memcpy` outside the buffer instead of
returning `DA_FAILURE` with the container unchanged. -/
theorem C3_set_wrapped_sum_not_rejected :
    sample_full.nmemb ≤ 2 ^ 64 - 3 ∧
    2 ^ 64 ≤ (sample_full.nmemb + (2 ^ 64 - 3) + 1) * sample_full.size ∧
    da_resize 64 alloc_ok sample_full ((sample_full.nmemb + (2 ^ 64 - 3) + 1) % 2 ^ 64) =
      .ok (DA_SUCCESS, ⟨some [1, 0, 0, 0, 2, 0, 0, 0, 3, 0, 0, 0], 3, 4, 3⟩) ∧
    da_set 64 alloc_ok sample_full [9, 8, 7, 6] (2 ^ 64 - 3) = .error .out_of_bounds ∧
    da_set 64 alloc_ok sample_full [9, 8, 7, 6] (2 ^ 64 - 3) ≠ .ok (DA_FAILURE, sample_full) :=
  ⟨by decide, by decide, rfl, rfl, by
    intro h
    have h2 : da_set 64 alloc_ok sample_full [9, 8, 7, 6] (2 ^ 64 - 3) = .error .out_of_bounds := rfl
    rw [h2] at h
    exact Except.noConfusion h⟩

/-- C4: when `da_resize(c, n)` returns `DA_SUCCESS`, the capacity is exactly `n`
and the length is `min(old length, n)`: `n` if `n < old length`, unchanged if
`n >= old length`. -/
theorem C4_resize_capacity_and_length (w : Nat) (a : Alloc) (da da' : da_dyn_array_s) (n : Nat)
    (h : da_resize w a da n = .ok (DA_SUCCESS, da')) :
    da'.nmemb = n ∧ da'.index = min da.index n ∧
      (n < da.index → da'.index = n) ∧ (da.index ≤ n → da'.index = da.index) := by
  obtain ⟨_, _, tmp, _, rfl⟩ := da_resize_success h
  refine ⟨rfl, rfl, ?_, ?_⟩
  · intro hlt
    exact Nat.min_eq_right (Nat.le_of_lt hlt)
  · intro hle
    exact Nat.min_eq_left hle

theorem C4_resize_capacity_and_length_witness :
    (⟨some [1, 0, 0, 0], 1, 4, 1⟩ : da_dyn_array_s).nmemb = 1 ∧
      (⟨some [1, 0, 0, 0], 1, 4, 1⟩ : da_dyn_array_s).index = min sample_da.index 1 ∧
      (1 < sample_da.index → (⟨some [1, 0, 0, 0], 1, 4, 1⟩ : da_dyn_array_s).index = 1) ∧
      (sample_da.index ≤ 1 →
        (⟨some [1, 0, 0, 0], 1, 4, 1⟩ : da_dyn_array_s).index = sample_da.index) :=
  C4_resize_capacity_and_length 64 alloc_ok sample_da ⟨some [1, 0, 0, 0], 1, 4, 1⟩ 1 rfl

/-- C5: when `da_resize(c, n)` returns `DA_SUCCESS`, every slot at an index
`i < min(old capacity, n)` holds the same bytes as before the call, and
`element_size` is unchanged. -/
theorem C5_resize_keeps_slots (w : Nat) (a : Alloc) (da da' : da_dyn_array_s) (n : Nat)
    (hv : da_valid w da) (h : da_resize w a da n = .ok (DA_SUCCESS, da')) :
    da'.size = da.size ∧ ∀ i, i < min da.nmemb n → da_slot da' i = da_slot da i := by
  refine ⟨?_, ?_⟩
  · obtain ⟨_, _, tmp, _, rfl⟩ := da_resize_success h
    rfl
  · intro i hi
    exact da_resize_slot hv h (Nat.lt_of_lt_of_le hi (Nat.min_le_left _ _))
      (Nat.lt_of_lt_of_le hi (Nat.min_le_right _ _))

theorem C5_resize_keeps_slots_witness :
    (⟨some [1, 0, 0, 0, 2, 0, 0, 0, 170, 170, 170, 170], 3, 4, 2⟩ : da_dyn_array_s).size =
        sample_da.size ∧
      ∀ i, i < min sample_da.nmemb 3 →
        da_slot ⟨some [1, 0, 0, 0, 2, 0, 0, 0, 170, 170, 170, 170], 3, 4, 2⟩ i =
          da_slot sample_da i :=
  C5_resize_keeps_slots 64 alloc_ok sample_da
    ⟨some [1, 0, 0, 0, 2, 0, 0, 0, 170, 170, 170, 170], 3, 4, 2⟩ 3 sample_da_valid rfl

/-- C6 (the code breaks it): a `da_set` that returns `DA_SUCCESS` at an index
`i >= old length` does not always leave the length `i + 1`.  On a container of
capacity 2 and length 2, `da_set` at index `2^64 - 1` asks `da_resize` for
`(2 + (2^64 - 1) + 1) mod 2^64 = 2` elements, which succeeds and leaves the
capacity 2; the `memcpy` that follows lies outside the buffer, and the length
the source then stores is `((2^64 - 1) + 1) mod 2^64 = 0`, not `i + 1`. -/
theorem C6_set_length_wraps_at_size_max :
    sample_da.index ≤ 2 ^ 64 - 1 ∧
    (sample_da.nmemb + (2 ^ 64 - 1) + 1) % 2 ^ 64 = 2 ∧
    da_resize 64 alloc_ok sample_da 2 = .ok (DA_SUCCESS, sample_da) ∧
    da_set 64 alloc_ok sample_da [9, 8, 7, 6] (2 ^ 64 - 1) = .error .out_of_bounds ∧
    (2 ^ 64 - 1 + 1) % 2 ^ 64 = 0 :=
  ⟨by decide, by decide, rfl, rfl, by decide⟩

/-- C7 (the code breaks it): a `da_set` that returns `DA_SUCCESS` at an index
`i >= capacity` does not always leave the capacity `old capacity + i + 1`.  On
a container of capacity 2, `da_set` at index `2^64 - 2` asks `da_resize` for
`(2 + (2^64 - 2) + 1) mod 2^64 = 1` element, which succeeds: the capacity
becomes 1, below the old one, and the `memcpy` that follows lies outside the
buffer. -/
theorem C7_set_capacity_wraps :
    sample_da.nmemb ≤ 2 ^ 64 - 2 ∧
    (sample_da.nmemb + (2 ^ 64 - 2) + 1) % 2 ^ 64 = 1 ∧
    da_resize 64 alloc_ok sample_da 1 = .ok (DA_SUCCESS, ⟨some [1, 0, 0, 0], 1, 4, 1⟩) ∧
    (⟨some [1, 0, 0, 0], 1, 4, 1⟩ : da_dyn_array_s).nmemb ≠
      sample_da.nmemb + (2 ^ 64 - 2) + 1 ∧
    da_set 64 alloc_ok sample_da [9, 8, 7, 6] (2 ^ 64 - 2) = .error .out_of_bounds :=
  ⟨by decide, by decide, rfl, by decide, rfl⟩

/-- C8 (the code breaks it): a `da_set` that returns `DA_FAILURE` does not
always leave the contents as they were.  On a full container of five 4-byte
elements, `da_set` at index `2^64 - 6` asks `da_resize` for
`(5 + (2^64 - 6) + 1) mod 2^64 = 0` elements; an allocator that serves a
`realloc` to 0 bytes by releasing the block and returning `NULL` makes
`da_resize`, and with it `da_set`, return `DA_FAILURE` with capacity 5 and
length 5 but a buffer that is gone: slot 0 no longer reads as the element it
held.  With an allocator that keeps the block when it returns `NULL`, the same
call leaves the container unchanged. -/
theorem C8_set_failure_releases_buffer :
    sample_full.nmemb ≤ 2 ^ 64 - 6 ∧
    (sample_full.nmemb + (2 ^ 64 - 6) + 1) % 2 ^ 64 = 0 ∧
    da_resize 64 alloc_zero_frees sample_full 0 = .ok (DA_FAILURE, ⟨some [], 5, 4, 5⟩) ∧
    da_set 64 alloc_zero_frees sample_full [9, 8, 7, 6] (2 ^ 64 - 6) =
      .ok (DA_FAILURE, ⟨some [], 5, 4, 5⟩) ∧
    da_slot sample_full 0 = [1, 0, 0, 0] ∧
    da_slot ⟨some [], 5, 4, 5⟩ 0 = [] ∧
    da_set 64 alloc_fail sample_full [9, 8, 7, 6] (2 ^ 64 - 6) = .ok (DA_FAILURE, sample_full) :=
  ⟨by decide, by decide, rfl, rfl, rfl, rfl, rfl⟩

/-- C9 (the code breaks it): a `da_set` that returns `DA_SUCCESS` does not
always keep the slots `j != i` below the old capacity.  On a full container of
five 4-byte elements, `da_set` at index `2^64 - 3` asks `da_resize` for
`(5 + (2^64 - 3) + 1) mod 2^64 = 3` elements, which succeeds and cuts the
buffer to three elements: the slots 3 and 4 are gone, and the `memcpy` that
follows lies outside the buffer. -/
theorem C9_set_drops_slots_on_wrap :
    (3 : Nat) ≠ 2 ^ 64 - 3 ∧ 3 < sample_full.nmemb ∧
    da_resize 64 alloc_ok sample_full ((sample_full.nmemb + (2 ^ 64 - 3) + 1) % 2 ^ 64) =
      .ok (DA_SUCCESS, ⟨some [1, 0, 0, 0, 2, 0, 0, 0, 3, 0, 0, 0], 3, 4, 3⟩) ∧
    da_slot sample_full 3 = [4, 0, 0, 0] ∧
    da_slot ⟨some [1, 0, 0, 0, 2, 0, 0, 0, 3, 0, 0, 0], 3, 4, 3⟩ 3 = [] ∧
    da_set 64 alloc_ok sample_full [9, 8, 7, 6] (2 ^ 64 - 3) = .error .out_of_bounds :=
  ⟨by decide, by decide, rfl, rfl, rfl, rfl⟩

/-- C10 (the code breaks it): after a `da_set(c, E, I)` that returns
`DA_SUCCESS`, slot `I` need not hold `E` and a fresh iterator need not reach
it.  On a container of capacity 2 and length 2, `da_set` at index `2^64 - 1`
keeps the capacity 2, copies `E` outside the buffer and stores the length
`((2^64 - 1) + 1) mod 2^64 = 0`.  The container is then the buffer as it was
with capacity 2 and length 0: slot `2^64 - 1` is not in it, and the first
`da_it_next` of a fresh iterator returns `NULL`. -/
theorem C10_set_at_size_max_not_iterated :
    da_resize 64 alloc_ok sample_da ((sample_da.nmemb + (2 ^ 64 - 1) + 1) % 2 ^ 64) =
      .ok (DA_SUCCESS, sample_da) ∧
    da_set 64 alloc_ok sample_da [9, 8, 7, 6] (2 ^ 64 - 1) = .error .out_of_bounds ∧
    (2 ^ 64 - 1 + 1) % 2 ^ 64 = 0 ∧
    da_slot ⟨some [1, 0, 0, 0, 2, 0, 0, 0], 2, 4, 0⟩ (2 ^ 64 - 1) = [] ∧
    da_it_create true = some { index := 0 } ∧
    da_it_next 64 ⟨some [1, 0, 0, 0, 2, 0, 0, 0], 2, 4, 0⟩ { index := 0 } =
      .ok (none, { index := 0 }) ∧
    da_it_run 64 ⟨some [1, 0, 0, 0, 2, 0, 0, 0], 2, 4, 0⟩ { index := 0 } 1 =
      .ok (none, { index := 0 }) :=
  ⟨rfl, rfl, by decide, rfl, rfl, rfl, rfl⟩

/-- C11: on a freshly created container, when all `N` `da_add` calls of a run
return `DA_SUCCESS` (each element having `element_size` bytes), the length is
`N`, the capacity is at least `N`, and for every `k < N` slot `k` holds the
bytes of the `k`-th element appended. -/
theorem C11_appends_retrievable (w : Nat) (m : Option (Nat × Nat)) (a0 : Alloc) (n s : Nat)
    (da0 da' : da_dyn_array_s) (l : List (Alloc × List Nat))
    (hn : n < 2 ^ w) (hs : s < 2 ^ w) (hc : da_create w m a0 n s = .ok (some da0))
    (hl : ∀ p ∈ l, p.2.length = s)
    (h : da_add_list w da0 l = .ok (DA_SUCCESS, da')) :
    da'.index = l.length ∧ l.length ≤ da'.nmemb ∧
      ∀ k (hk : k < l.length), da_slot da' k = (l.get ⟨k, hk⟩).2 := by
  obtain ⟨hv0, _, hs0, hi0⟩ := da_create_some hn hs hc
  have hl0 : ∀ p ∈ l, p.2.length = da0.size := by
    intro p hp
    rw [hs0]
    exact hl p hp
  obtain ⟨hv', _, hi', _, hnew⟩ := da_add_list_spec l da0 da' hv0 hl0 h
  rw [hi0, Nat.zero_add] at hi'
  refine ⟨hi', ?_, ?_⟩
  · rw [← hi']
    exact hv'.2.2.2.1
  · intro k hk
    have := hnew k hk
    rw [hi0, Nat.zero_add] at this
    exact this

theorem C11_appends_retrievable_witness :
    (⟨some [1, 0, 0, 0, 2, 0, 0, 0, 3, 0, 0, 0], 3, 4, 3⟩ : da_dyn_array_s).index =
        [(alloc_ok, [1, 0, 0, 0]), (alloc_ok, [2, 0, 0, 0]), (alloc_ok, [3, 0, 0, 0])].length ∧
      [(alloc_ok, [1, 0, 0, 0]), (alloc_ok, [2, 0, 0, 0]), (alloc_ok, [3, 0, 0, 0])].length ≤
        (⟨some [1, 0, 0, 0, 2, 0, 0, 0, 3, 0, 0, 0], 3, 4, 3⟩ : da_dyn_array_s).nmemb ∧
      ∀ k (hk : k <
          [(alloc_ok, [1, 0, 0, 0]), (alloc_ok, [2, 0, 0, 0]), (alloc_ok, [3, 0, 0, 0])].length),
        da_slot ⟨some [1, 0, 0, 0, 2, 0, 0, 0, 3, 0, 0, 0], 3, 4, 3⟩ k =
          ([(alloc_ok, [1, 0, 0, 0]), (alloc_ok, [2, 0, 0, 0]), (alloc_ok, [3, 0, 0, 0])].get
            ⟨k, hk⟩).2 :=
  C11_appends_retrievable 64 (some (7, 9)) alloc_ok 0 4 ⟨some [], 0, 4, 0⟩ _
    [(alloc_ok, [1, 0, 0, 0]), (alloc_ok, [2, 0, 0, 0]), (alloc_ok, [3, 0, 0, 0])]
    (by decide) (by decide) rfl
    (by
      intro p hp
      simp only [List.mem_cons, List.mem_singleton, List.not_mem_nil, or_false] at hp
      rcases hp with rfl | rfl | rfl <;> rfl)
    rfl

/-- C12: `da_add(c, e)` is `da_set(c, e, length)`: it writes at the index equal
to the current length, which after a shrinking `da_resize` is the new capacity,
and whenever it returns `DA_SUCCESS` the slot at the old length holds the
element and the length has grown by exactly one. -/
theorem C12_add_is_set_at_length (w : Nat) (a : Alloc) (da : da_dyn_array_s) (e : List Nat)
    (hv : da_valid w da) :
    da_add w a da e = da_set w a da e da.index ∧
      (∀ da', da_add w a da e = .ok (DA_SUCCESS, da') →
        da'.index = da.index + 1 ∧ da_slot da' da.index = e.take da.size) ∧
      (∀ a0 n mid, da_resize w a0 da n = .ok (DA_SUCCESS, mid) → n < da.index →
        da_add w a mid e = da_set w a mid e n) := by
  have hi : da.index < 2 ^ w := hv.2.2.1
  refine ⟨rfl, ?_, ?_⟩
  · intro da' h
    have h' : da_set w a da e da.index = .ok (DA_SUCCESS, da') := h
    refine ⟨?_, (da_set_slots hv hi h').2.1⟩
    obtain ⟨mid, b', _, _, _, _, _, _, rfl⟩ := da_set_success hv hi h'
    show (if da.index ≤ da.index then da.index + 1 else da.index) = da.index + 1
    rw [if_pos (Nat.le_refl _)]
  · intro a0 n mid h hlt
    obtain ⟨_, _, tmp, _, rfl⟩ := da_resize_success h
    show da_set w a _ e (min da.index n) = _
    rw [Nat.min_eq_right (Nat.le_of_lt hlt)]

theorem C12_add_is_set_at_length_witness :
    da_add 64 alloc_ok sample_da [9, 8, 7, 6] =
        da_set 64 alloc_ok sample_da [9, 8, 7, 6] sample_da.index ∧
      (∀ da', da_add 64 alloc_ok sample_da [9, 8, 7, 6] = .ok (DA_SUCCESS, da') →
        da'.index = sample_da.index + 1 ∧
          da_slot da' sample_da.index = [9, 8, 7, 6].take sample_da.size) ∧
      (∀ a0 n mid, da_resize 64 a0 sample_da n = .ok (DA_SUCCESS, mid) → n < sample_da.index →
        da_add 64 alloc_ok mid [9, 8, 7, 6] = da_set 64 alloc_ok mid [9, 8, 7, 6] n) :=
  C12_add_is_set_at_length 64 alloc_ok sample_da [9, 8, 7, 6] sample_da_valid

/-- C13 (as stated, fails): with `element_size == 0` the product
`initial_count * element_size` is representable and the allocations may
succeed, yet `da_create` returns neither a container nor `NULL`: the overflow
test of `da_resize` divides by zero. -/
theorem C13_create_zero_size_counterexample :
    3 * 0 < 2 ^ 64 ∧ alloc_ok.ok = true ∧
      da_create 64 (some (7, 9)) alloc_ok 3 0 = .error .div_by_zero ∧
      ¬ ∃ r, da_create 64 (some (7, 9)) alloc_ok 3 0 = .ok r := by
  refine ⟨by decide, rfl, rfl, ?_⟩
  rintro ⟨r, hr⟩
  have h2 : da_create 64 (some (7, 9)) alloc_ok 3 0 = .error .div_by_zero := rfl
  rw [h2] at hr
  exact Except.noConfusion hr

/-- C13 (amended): for every `initial_count` and every `element_size > 0`,
`da_create` either returns a container with length 0, capacity
`initial_count` and the given element size, or returns `NULL`; it returns
`NULL` whenever the product overflows `size_t` or an allocation fails, and
returns a container whenever the product is representable and both
allocations succeed. -/
theorem C13_create_positive_size (w : Nat) (m : Option (Nat × Nat)) (a : Alloc) (n s : Nat)
    (hs : 0 < s) :
    (da_create w m a n s = .ok none ∨
      ∃ da, da_create w m a n s = .ok (some da) ∧
        da.index = 0 ∧ da.nmemb = n ∧ da.size = s) ∧
    (2 ^ w ≤ n * s → da_create w m a n s = .ok none) ∧
    (m = none → da_create w m a n s = .ok none) ∧
    (a.ok = false → da_create w m a n s = .ok none) ∧
    (n * s < 2 ^ w → a.ok = true → m ≠ none →
      ∃ da, da_create w m a n s = .ok (some da) ∧
        da.index = 0 ∧ da.nmemb = n ∧ da.size = s) := by
  refine ⟨?_, ?_, ?_, ?_, ?_⟩
  · rcases da_create_cases w m a n s hs with h | ⟨g, tmp, _, _, _, h⟩
    · exact Or.inl h
    · exact Or.inr ⟨_, h, rfl, rfl, rfl⟩
  · intro hov
    rcases da_create_cases w m a n s hs with h | ⟨g, tmp, _, hlt, _, _⟩
    · exact h
    · omega
  · intro hm
    rw [hm]
    rfl
  · intro hok
    rcases da_create_cases w m a n s hs with h | ⟨g, tmp, _, _, hr, _⟩
    · exact h
    · rw [realloc_of_not_ok hok] at hr
      exact absurd hr (by simp)
  · intro hfit hok hm
    cases m with
    | none => exact absurd rfl hm
    | some g =>
      have hs' : 0 < (⟨none, g.1, s, g.2⟩ : da_dyn_array_s).size := hs
      obtain ⟨tmp, _, hres⟩ := da_resize_fits w n hs' hfit hok
      refine ⟨⟨some tmp, n, s, 0⟩, ?_, rfl, rfl, rfl⟩
      unfold da_create
      simp only [hres, DA_SUCCESS_ne_DA_FAILURE, if_false]

theorem C13_create_positive_size_witness :
    (da_create 64 (some (7, 9)) alloc_ok 5 1 = .ok none ∨
      ∃ da, da_create 64 (some (7, 9)) alloc_ok 5 1 = .ok (some da) ∧
        da.index = 0 ∧ da.nmemb = 5 ∧ da.size = 1) ∧
    (2 ^ 64 ≤ 5 * 1 → da_create 64 (some (7, 9)) alloc_ok 5 1 = .ok none) ∧
    ((some (7, 9) : Option (Nat × Nat)) = none →
      da_create 64 (some (7, 9)) alloc_ok 5 1 = .ok none) ∧
    (alloc_ok.ok = false → da_create 64 (some (7, 9)) alloc_ok 5 1 = .ok none) ∧
    (5 * 1 < 2 ^ 64 → alloc_ok.ok = true → (some (7, 9) : Option (Nat × Nat)) ≠ none →
      ∃ da, da_create 64 (some (7, 9)) alloc_ok 5 1 = .ok (some da) ∧
        da.index = 0 ∧ da.nmemb = 5 ∧ da.size = 1) :=
  C13_create_positive_size 64 (some (7, 9)) alloc_ok 5 1 (by decide)

/-- C14: on a container of length `L` that stays as it is, an iterator fresh
from `da_it_create` returns on its `k`-th `da_it_next`, `k = 1 .. L`, the
pointer to the slot at index `k - 1`; the `(L+1)`-th call and every further
call return `NULL` and leave the cursor at `L`. -/
theorem C14_iterate_in_order (w : Nat) (da : da_dyn_array_s) (it : da_iterator)
    (hv : da_valid w da) (hit : da_it_create true = some it) :
    (∀ k, 1 ≤ k → k ≤ da.index →
      da_it_run w da it k = .ok (some ((k - 1) * da.size), { index := k }) ∧
        da_peek da ((k - 1) * da.size) = da_slot da (k - 1)) ∧
    (∀ k, da.index < k → da_it_run w da it k = .ok (none, { index := da.index })) := by
  have hit0 : it = { index := 0 } := by
    simp only [da_it_create, if_true, Option.some.injEq] at hit
    exact hit.symm
  subst hit0
  refine ⟨fun k hk1 hk2 => ⟨da_it_run_fresh_le hv k hk1 hk2, rfl⟩, ?_⟩
  intro k hk
  obtain ⟨d, rfl⟩ : ∃ d, k = da.index + 1 + d := ⟨k - (da.index + 1), by omega⟩
  exact da_it_run_fresh_gt hv d

theorem C14_iterate_in_order_witness :
    (∀ k, 1 ≤ k → k ≤ sample_da.index →
      da_it_run 64 sample_da { index := 0 } k =
          .ok (some ((k - 1) * sample_da.size), { index := k }) ∧
        da_peek sample_da ((k - 1) * sample_da.size) = da_slot sample_da (k - 1)) ∧
    (∀ k, sample_da.index < k →
      da_it_run 64 sample_da { index := 0 } k = .ok (none, { index := sample_da.index })) :=
  C14_iterate_in_order 64 sample_da { index := 0 } sample_da_valid rfl

/-- C15: the iterator takes no snapshot: when an iterator is exhausted on a
container of length `L` (`da_it_next` returned `NULL`, cursor `L`) and a
`da_add(c, E)` then succeeds, the next `da_it_next` returns the pointer to slot
`L` of the new buffer, which reads as `E`, and the call after it returns
`NULL`. -/
theorem C15_iterator_sees_append (w : Nat) (a : Alloc) (da da' : da_dyn_array_s)
    (it : da_iterator) (E : List Nat) (hv : da_valid w da) (hE : E.length = da.size)
    (hcur : it.index = da.index) (h : da_add w a da E = .ok (DA_SUCCESS, da')) :
    da_it_next w da it = .ok (none, it) ∧
      da_it_next w da' it = .ok (some (da.index * da'.size), { index := da.index + 1 }) ∧
      da_peek da' (da.index * da'.size) = E ∧
      da_it_next w da' { index := da.index + 1 } = .ok (none, { index := da.index + 1 }) := by
  have hi : da.index < 2 ^ w := hv.2.2.1
  have h' : da_set w a da E da.index = .ok (DA_SUCCESS, da') := h
  have hv' := da_set_valid hv hi h'
  obtain ⟨hsz, hslot, hlt, hw, hoff, ⟨b', hb'⟩, _⟩ := da_set_slots hv hi h'
  have hidx : da'.index = da.index + 1 := by
    obtain ⟨mid, b2, _, _, _, _, _, _, rfl⟩ := da_set_success hv hi h'
    show (if da.index ≤ da.index then da.index + 1 else da.index) = da.index + 1
    rw [if_pos (Nat.le_refl _)]
  have htake : E.take da.size = E := by
    rw [← hE]
    exact List.take_length E
  rw [htake] at hslot
  obtain ⟨b, hb, _⟩ := hv.2.2.2.2
  refine ⟨da_it_next_ge w hb (Nat.le_of_eq hcur.symm), ?_, ?_, ?_⟩
  · have hlt' : it.index < da'.index := by omega
    rw [da_it_next_lt w hb' hw hlt', hcur, hsz, Nat.mod_eq_of_lt hoff]
  · exact hslot
  · exact da_it_next_ge w hb' (Nat.le_of_eq hidx)

theorem C15_iterator_sees_append_witness :
    da_it_next 64 sample_da { index := 2 } = .ok (none, { index := 2 }) ∧
      da_it_next 64 ⟨some [1, 0, 0, 0, 2, 0, 0, 0, 9, 8, 7, 6, 170, 170, 170, 170, 170, 170, 170,
        170], 5, 4, 3⟩ { index := 2 } =
        .ok (some (sample_da.index * (⟨some [1, 0, 0, 0, 2, 0, 0, 0, 9, 8, 7, 6, 170, 170, 170,
          170, 170, 170, 170, 170], 5, 4, 3⟩ : da_dyn_array_s).size),
          { index := sample_da.index + 1 }) ∧
      da_peek ⟨some [1, 0, 0, 0, 2, 0, 0, 0, 9, 8, 7, 6, 170, 170, 170, 170, 170, 170, 170,
        170], 5, 4, 3⟩ (sample_da.index * (⟨some [1, 0, 0, 0, 2, 0, 0, 0, 9, 8, 7, 6, 170, 170,
          170, 170, 170, 170, 170, 170], 5, 4, 3⟩ : da_dyn_array_s).size) = [9, 8, 7, 6] ∧
      da_it_next 64 ⟨some [1, 0, 0, 0, 2, 0, 0, 0, 9, 8, 7, 6, 170, 170, 170, 170, 170, 170,
        170, 170], 5, 4, 3⟩ { index := sample_da.index + 1 } =
        .ok (none, { index := sample_da.index + 1 }) :=
  C15_iterator_sees_append 64 alloc_ok sample_da _ { index := 2 } [9, 8, 7, 6]
    sample_da_valid rfl rfl rfl

/-- C16: on a valid container and for a comparator whose `<= 0` relation is
total and transitive, `da_sort` leaves length, capacity and element size
unchanged, leaves every slot at an index `>= length` as it was, and leaves in
the slots `[0, length)` a permutation of their previous contents that is
non-decreasing under the comparator. -/
theorem C16_sort_first_length_slots (w : Nat) (da : da_dyn_array_s)
    (compar : List Nat → List Nat → Int) (hv : da_valid w da)
    (htot : ∀ x y, compar x y ≤ 0 ∨ compar y x ≤ 0)
    (htr : ∀ x y z, compar x y ≤ 0 → compar y z ≤ 0 → compar x z ≤ 0) :
    ∃ da', da_sort da compar = .ok da' ∧
      da'.index = da.index ∧ da'.nmemb = da.nmemb ∧ da'.size = da.size ∧
      (∀ j, da.index ≤ j → da_slot da' j = da_slot da j) ∧
      List.Perm (da_slots da' da.index) (da_slots da da.index) ∧
      List.Sorted (fun x y => compar x y ≤ 0) (da_slots da' da.index) := by
  obtain ⟨da', hs, _, hi, hn, hsz, hframe, hslots⟩ := da_sort_spec compar hv
  refine ⟨da', hs, hi, hn, hsz, hframe, ?_, ?_⟩
  · rw [hslots]
    exact List.perm_insertionSort _ _
  · rw [hslots]
    haveI : IsTotal (List Nat) (fun x y => compar x y ≤ 0) := ⟨htot⟩
    haveI : IsTrans (List Nat) (fun x y => compar x y ≤ 0) := ⟨htr⟩
    exact List.sorted_insertionSort _ _

theorem C16_sort_first_length_slots_witness :
    ∃ da', da_sort sample_unsorted compar_first = .ok da' ∧
      da'.index = sample_unsorted.index ∧ da'.nmemb = sample_unsorted.nmemb ∧
      da'.size = sample_unsorted.size ∧
      (∀ j, sample_unsorted.index ≤ j → da_slot da' j = da_slot sample_unsorted j) ∧
      List.Perm (da_slots da' sample_unsorted.index)
        (da_slots sample_unsorted sample_unsorted.index) ∧
      List.Sorted (fun x y => compar_first x y ≤ 0) (da_slots da' sample_unsorted.index) :=
  C16_sort_first_length_slots 64 sample_unsorted compar_first
    ⟨by decide, by decide, by decide, by decide, _, rfl, rfl, by decide⟩
    (by intro x y; unfold compar_first; omega)
    (by intro x y z; unfold compar_first; omega)

/-- C17: the division test of `da_resize` is exact: for `element_size > 0`,
`((n * size) mod 2^w) / size == n` holds if and only if `n * size < 2^w`; hence,
when the allocator grants the request, `da_resize` returns `DA_SUCCESS` for
exactly the counts whose byte size is representable. -/
theorem C17_overflow_test_exact (w : Nat) (a : Alloc) (da : da_dyn_array_s) (n : Nat)
    (hs : 0 < da.size) :
    ((n * da.size) % 2 ^ w / da.size = n ↔ n * da.size < 2 ^ w) ∧
      (a.ok = true →
        ((∃ da', da_resize w a da n = .ok (DA_SUCCESS, da')) ↔ n * da.size < 2 ^ w)) := by
  refine ⟨⟨mul_lt_of_mod_div_eq (two_pow_pos w), mod_div_eq_of_mul_lt hs⟩, ?_⟩
  intro hok
  constructor
  · rintro ⟨da', h⟩
    exact (da_resize_success h).2.1
  · intro hfit
    obtain ⟨tmp, _, hres⟩ := da_resize_fits w n hs hfit hok
    exact ⟨_, hres⟩

theorem C17_overflow_test_exact_witness :
    ((2 ^ 62 * sample_da.size) % 2 ^ 64 / sample_da.size = 2 ^ 62 ↔
        2 ^ 62 * sample_da.size < 2 ^ 64) ∧
      (alloc_ok.ok = true →
        ((∃ da', da_resize 64 alloc_ok sample_da (2 ^ 62) = .ok (DA_SUCCESS, da')) ↔
          2 ^ 62 * sample_da.size < 2 ^ 64)) :=
  C17_overflow_test_exact 64 alloc_ok sample_da (2 ^ 62) (by decide)

/-- C18: starting from `da_create(0, s)`, after `N` successful `da_add` calls
the capacity is `2^k - 1` for the least `k` with `2^k - 1 >= N`, and exactly
`k` of the `N` calls went through `da_resize`. -/
theorem C18_growth_schedule (w : Nat) (m : Option (Nat × Nat)) (a0 : Alloc) (s : Nat)
    (da0 da' : da_dyn_array_s) (l : List (Alloc × List Nat))
    (hs : s < 2 ^ w) (hc : da_create w m a0 0 s = .ok (some da0))
    (hl : ∀ p ∈ l, p.2.length = s)
    (h : da_add_list w da0 l = .ok (DA_SUCCESS, da')) :
    ∃ k, da'.nmemb = 2 ^ k - 1 ∧ l.length ≤ 2 ^ k - 1 ∧
      (∀ j, l.length ≤ 2 ^ j - 1 → k ≤ j) ∧ da_add_resizes w da0 l = k := by
  obtain ⟨hv0, hn0, hs0, hi0⟩ := da_create_some (two_pow_pos w) hs hc
  have hl0 : ∀ p ∈ l, p.2.length = da0.size := by
    intro p hp
    rw [hs0]
    exact hl p hp
  obtain ⟨hv', _, hi', _, _⟩ := da_add_list_spec l da0 da' hv0 hl0 h
  rw [hi0, Nat.zero_add] at hi'
  obtain ⟨k, hcap, hleast, hcnt⟩ :=
    da_add_list_growth l da0 da' 0 hv0 hl0 (by rw [hn0]; rfl) (Or.inl rfl) h
  have hle : da'.index ≤ da'.nmemb := hv'.2.2.2.1
  refine ⟨k, by omega, by omega, ?_, by omega⟩
  intro j hj
  by_contra hlt
  have hjk : j ≤ k - 1 := by omega
  have hpow : 2 ^ j ≤ 2 ^ (k - 1) := Nat.pow_le_pow_right (by decide) hjk
  have hpos : 0 < 2 ^ j := two_pow_pos j
  rcases hleast with h0 | h0
  · omega
  · omega

theorem C18_growth_schedule_witness :
    ∃ k, (⟨some [1, 0, 0, 0, 2, 0, 0, 0, 3, 0, 0, 0, 4, 0, 0, 0, 170, 170, 170, 170, 170, 170,
        170, 170, 170, 170, 170, 170], 7, 4, 4⟩ : da_dyn_array_s).nmemb = 2 ^ k - 1 ∧
      [(alloc_ok, [1, 0, 0, 0]), (alloc_ok, [2, 0, 0, 0]), (alloc_ok, [3, 0, 0, 0]),
        (alloc_ok, [4, 0, 0, 0])].length ≤ 2 ^ k - 1 ∧
      (∀ j, [(alloc_ok, [1, 0, 0, 0]), (alloc_ok, [2, 0, 0, 0]), (alloc_ok, [3, 0, 0, 0]),
        (alloc_ok, [4, 0, 0, 0])].length ≤ 2 ^ j - 1 → k ≤ j) ∧
      da_add_resizes 64 ⟨some [], 0, 4, 0⟩
        [(alloc_ok, [1, 0, 0, 0]), (alloc_ok, [2, 0, 0, 0]), (alloc_ok, [3, 0, 0, 0]),
          (alloc_ok, [4, 0, 0, 0])] = k :=
  C18_growth_schedule 64 (some (7, 9)) alloc_ok 4 ⟨some [], 0, 4, 0⟩ _
    [(alloc_ok, [1, 0, 0, 0]), (alloc_ok, [2, 0, 0, 0]), (alloc_ok, [3, 0, 0, 0]),
      (alloc_ok, [4, 0, 0, 0])]
    (by decide) rfl
    (by
      intro p hp
      simp only [List.mem_cons, List.mem_singleton, List.not_mem_nil, or_false] at hp
      rcases hp with rfl | rfl | rfl | rfl <;> rfl)
    rfl

/-- C19: for every state of the container (created, so that its buffer is not
`NULL`) and every cursor, `da_it_next` returns a slot only when
`cursor < length`; the pointer is then `base + cursor * size`, the slot at the
cursor index, which is below the capacity whenever `length <= capacity` and
inside the buffer of a valid container, and the cursor advances by exactly
one.  When `cursor >= length`, as for a cursor left above the length by a
shrinking `da_resize`, it returns `NULL` and leaves the cursor unchanged. -/
theorem C19_next_is_bounded (w : Nat) (da : da_dyn_array_s) (it : da_iterator)
    (hb : da.base ≠ none) (hL : da.index < 2 ^ w) :
    (∀ p it', da_it_next w da it = .ok (some p, it') →
      it.index < da.index ∧ p = (it.index * da.size) % 2 ^ w ∧
        it' = { index := it.index + 1 }) ∧
    (it.index < da.index →
      da_it_next w da it =
          .ok (some ((it.index * da.size) % 2 ^ w), { index := it.index + 1 }) ∧
        (da.index ≤ da.nmemb → it.index < da.nmemb)) ∧
    (da.index ≤ it.index → da_it_next w da it = .ok (none, it)) ∧
    (da_valid w da → it.index < da.index →
      (it.index * da.size) % 2 ^ w = it.index * da.size ∧
        da_peek da (it.index * da.size) = da_slot da it.index ∧
        (da_slot da it.index).length = da.size) ∧
    (∀ a n da', da_resize w a da n = .ok (DA_SUCCESS, da') → n < it.index →
      da_it_next w da' it = .ok (none, it)) := by
  obtain ⟨b, hb⟩ : ∃ b, da.base = some b := by
    cases h : da.base with
    | none => exact absurd h hb
    | some b => exact ⟨b, rfl⟩
  refine ⟨?_, ?_, fun h => da_it_next_ge w hb h, ?_, ?_⟩
  · intro p it' h
    by_cases hlt : it.index < da.index
    · rw [da_it_next_lt w hb hL hlt] at h
      simp only [Except.ok.injEq, Prod.mk.injEq, Option.some.injEq] at h
      exact ⟨hlt, h.1.symm, h.2.symm⟩
    · rw [da_it_next_ge w hb (Nat.le_of_not_lt hlt)] at h
      simp at h
  · intro hlt
    exact ⟨da_it_next_lt w hb hL hlt, fun hle => Nat.lt_of_lt_of_le hlt hle⟩
  · intro hv hlt
    obtain ⟨hmod, _, b2, hb2, hoff⟩ := da_valid_offset hv hlt
    refine ⟨hmod, rfl, ?_⟩
    unfold da_slot da_peek
    simp only [hb2, Option.getD_some, List.length_take, List.length_drop]
    omega
  · intro a n da' h hlt
    obtain ⟨_, _, tmp, _, rfl⟩ := da_resize_success h
    have hb' : (⟨some tmp, n, da.size, min da.index n⟩ : da_dyn_array_s).base = some tmp := rfl
    exact da_it_next_ge w hb' (Nat.le_trans (Nat.min_le_right _ _) (Nat.le_of_lt hlt))

theorem C19_next_is_bounded_witness :
    ((1 : Nat) < sample_da.index →
      da_it_next 64 sample_da { index := 1 } =
          .ok (some ((1 * sample_da.size) % 2 ^ 64), { index := 1 + 1 }) ∧
        (sample_da.index ≤ sample_da.nmemb → (1 : Nat) < sample_da.nmemb)) ∧
    (sample_da.index ≤ 5 →
      da_it_next 64 sample_da { index := 5 } = .ok (none, { index := 5 })) :=
  ⟨(C19_next_is_bounded 64 sample_da { index := 1 } (by decide) (by decide)).2.1,
    (C19_next_is_bounded 64 sample_da { index := 5 } (by decide) (by decide)).2.2.1⟩

/-- C20 (as stated, fails): `da_create(n, 0)` does not reach the division for
every run: when the `malloc` of the structure fails it returns `NULL` without
calling `da_resize`. -/
theorem C20_create_zero_size_malloc_fails_counterexample :
    da_create 64 none alloc_ok 3 0 = .ok none ∧
      da_create 64 none alloc_ok 3 0 ≠ .error .div_by_zero := by
  refine ⟨rfl, ?_⟩
  intro h
  have h2 : da_create 64 none alloc_ok 3 0 = .ok none := rfl
  rw [h2] at h
  exact Except.noConfusion h

/-- C20 (amended): `da_resize` tests the element size before anything else:
with `element_size == 0` it divides by zero for every requested count, and so
does `da_create(n, 0)` for every `n` once the structure is allocated (when that
`malloc` fails, `da_create` returns `NULL` first); with `element_size > 0`
none of `da_resize`, `da_set`, `da_add`, `da_create` divides by zero, and no
operation changes the element size. -/
theorem C20_division_by_element_size (w : Nat) (a : Alloc) (da : da_dyn_array_s) (n : Nat)
    (obj : List Nat) (i : Nat) (m : Option (Nat × Nat)) (s : Nat) :
    (da.size = 0 → da_resize w a da n = .error .div_by_zero) ∧
    (∀ g, da_create w (some g) a n 0 = .error .div_by_zero) ∧
    da_create w none a n 0 = .ok none ∧
    (0 < da.size →
      da_resize w a da n ≠ .error .div_by_zero ∧
      da_set w a da obj i ≠ .error .div_by_zero ∧
      da_add w a da obj ≠ .error .div_by_zero) ∧
    (0 < s → da_create w m a n s ≠ .error .div_by_zero) ∧
    (∀ st da', da_resize w a da n = .ok (st, da') → da'.size = da.size) ∧
    (∀ st da', da_set w a da obj i = .ok (st, da') → da'.size = da.size) ∧
    (∀ st da', da_add w a da obj = .ok (st, da') → da'.size = da.size) := by
  refine ⟨da_resize_size_zero w a n, fun g => da_create_size_zero w g a n, rfl, ?_, ?_,
    fun _ _ h => da_resize_size h, fun _ _ h => da_set_size h, fun _ _ h => da_set_size h⟩
  · intro hs
    refine ⟨?_, da_set_no_div w a obj i hs, da_set_no_div w a obj da.index hs⟩
    rcases da_resize_total w a n hs with ⟨_, hf⟩ | ⟨_, _, _, hres⟩
    · rw [hf]; simp
    · rw [hres]; simp
  · intro hs
    rcases da_create_cases w m a n s hs with h | ⟨_, _, _, _, _, h⟩
    · rw [h]; simp
    · rw [h]; simp

theorem C20_division_by_element_size_witness :
    da_resize 64 alloc_ok ⟨some [], 3, 0, 0⟩ 7 = .error .div_by_zero ∧
      (da_resize 64 alloc_ok sample_da 7 ≠ .error .div_by_zero ∧
        da_set 64 alloc_ok sample_da [9, 8, 7, 6] 5 ≠ .error .div_by_zero ∧
        da_add 64 alloc_ok sample_da [9, 8, 7, 6] ≠ .error .div_by_zero) ∧
      da_create 64 (some (7, 9)) alloc_ok 7 4 ≠ .error .div_by_zero :=
  ⟨(C20_division_by_element_size 64 alloc_ok ⟨some [], 3, 0, 0⟩ 7 [] 0 none 0).1 rfl,
    (C20_division_by_element_size 64 alloc_ok sample_da 7 [9, 8, 7, 6] 5 none 4).2.2.2.1
      (by decide),
    (C20_division_by_element_size 64 alloc_ok sample_da 7 [] 0 (some (7, 9)) 4).2.2.2.2.1
      (by decide)⟩

end DynArray
